import Mathlib

/-!
mini-shell: the tokenizer and the redirection scan

A shallow embedding of `parseTokens`, of the redirection scan that the child process
runs in `main`, and of the body of the loop of `main` (file `code.c`), followed by the
properties proved about them.

A C string is represented by the list of its characters before the terminating
NUL, so `strlen` is the length of the list.
-/

namespace MiniShell

/-! ## The tokenizer (`parseTokens`, lines 52-106) -/

/-- The characters of a token. For an entry of the array that `parseTokens` builds
these are the characters that `strncpy` copies into the buffer of the entry; whether
the buffer also ends in a NUL is kept beside them (`ParseState.terminated`). -/
abbrev Token := List Char

/-- The ways in which a run of `parseTokens` does not return an array. -/
inductive ParseError where
  /-- The branch of lines 71-79: message, release, `exit(EXIT_FAILURE)`. -/
  | unterminatedQuote
  /-- An access outside the line buffer. -/
  | outOfBounds
  /-- The iteration budget of the embedding was used up. -/
  | outOfFuel
  deriving DecidableEq, Repr

/-- The variables of `parseTokens` that live across iterations of the scan:
`arr` holds the characters copied into the entries written so far (`index` is its
length), `terminated` says for each entry whether its buffer ends in a NUL,
`token_count` is the global counter and `lastIndex` the start of the pending
unquoted run. -/
structure ParseState where
  arr : List Token
  terminated : List Bool
  token_count : Nat
  lastIndex : Nat
  deriving DecidableEq, Repr

/-- The read `str[i]`: the characters of the string, then the NUL at index
`strlen`; nothing beyond. -/
def charAt (str : List Char) (i : Nat) : Option Char :=
  if i < str.length then str[i]? else if i = str.length then some (Char.ofNat 0) else none

/-- The copy `strncpy(tk, str+start, sz)`. -/
def slice (str : List Char) (start sz : Nat) : Token :=
  (str.drop start).take sz

/-- The loop `while(str[len]==' ') len--;` of line 57, entered with index `len`.
It yields the index at which the loop stops; when index 0 holds a space the next
read is `str[-1]`. -/
def trimLoop (str : List Char) : Nat → Except ParseError Nat
  | 0 =>
    match charAt str 0 with
    | none => .error .outOfBounds
    | some c => if c = ' ' then .error .outOfBounds else .ok 0
  | len + 1 =>
    match charAt str (len + 1) with
    | none => .error .outOfBounds
    | some c => if c = ' ' then trimLoop str len else .ok (len + 1)

/-- The loop `while(++i<len && str[i]!='\"');` of line 70, entered with `i` on the
opening quote. It yields the value of `i` when the loop stops. -/
def closeQuote (str : List Char) (len : Nat) : Nat → Nat → Except ParseError Nat
  | 0, _ => .error .outOfFuel
  | fuel + 1, i =>
    if i + 1 < len then
      match charAt str (i + 1) with
      | none => .error .outOfBounds
      | some c => if c ≠ '"' then closeQuote str len fuel (i + 1) else .ok (i + 1)
    else .ok (i + 1)

/-- The test `i>0 && str[i-1]==' '` of line 89. -/
def afterSpace (str : List Char) (i : Nat) : Except ParseError Bool :=
  if 0 < i then
    match charAt str (i - 1) with
    | none => .error .outOfBounds
    | some p => .ok (decide (p = ' '))
  else .ok false

/-- The entry of the unquoted branch (lines 93-100): `token_count++`, a buffer of
`sz + 1` bytes that receives the `sz` characters and `tk[sz] = '\0'`, and
`arr[index++] = tk`. -/
def ParseState.push (st : ParseState) (tk : Token) : ParseState :=
  { st with
    arr := st.arr ++ [tk]
    terminated := st.terminated ++ [true]
    token_count := st.token_count + 1 }

/-- The entry of the quoted branch (lines 81-86): `token_count++`, a buffer of `sz`
bytes that receives the `sz` characters and no NUL, and `arr[index++] = tk`. -/
def ParseState.pushRaw (st : ParseState) (tk : Token) : ParseState :=
  { st with
    arr := st.arr ++ [tk]
    terminated := st.terminated ++ [false]
    token_count := st.token_count + 1 }

/-- The loop `for(i=0;i<=len;i++)` of lines 67-103, from the test `i<=len` on. -/
def scanLoop (str : List Char) (len : Nat) :
    Nat → Nat → ParseState → Except ParseError ParseState
  | 0, _, _ => .error .outOfFuel
  | fuel + 1, i, st =>
    if i ≤ len then
      match charAt str i with
      | none => .error .outOfBounds
      | some c =>
        if c = '"' then
          let j := i + 1
          match closeQuote str len (len + 1) i with
          | .error e => .error e
          | .ok i1 =>
            if i1 = len then .error .unterminatedQuote
            else scanLoop str len fuel (i1 + 1) (st.pushRaw (slice str j (i1 - j)))
        else if c = ' ' then
          match afterSpace str i with
          | .error e => .error e
          | .ok true => scanLoop str len fuel (i + 1) { st with lastIndex := i + 1 }
          | .ok false =>
            scanLoop str len fuel (i + 1)
              { (st.push (slice str st.lastIndex (i - st.lastIndex))) with lastIndex := i + 1 }
        else scanLoop str len fuel (i + 1) st
    else .ok st

/-- What `parseTokens` hands back: the array, given by the characters copied into
each entry and by whether the buffer of the entry ends in a NUL, and the value left
in the global `token_count`. -/
structure Parsed where
  arr : List Token
  terminated : List Bool
  token_count : Nat
  deriving DecidableEq, Repr

/-- The function `parseTokens`. -/
def parseTokens (str : List Char) : Except ParseError Parsed :=
  if str.length < 2 then .error .outOfBounds
  else
    match trimLoop str (str.length - 2) with
    | .error e => .error e
    | .ok l =>
      let len := l + 1
      let str1 := str.set len ' '
      match scanLoop str1 len (len + 2) 0
          { arr := [], terminated := [], token_count := 0, lastIndex := 0 } with
      | .error e => .error e
      | .ok st =>
        .ok { arr := st.arr, terminated := st.terminated, token_count := st.token_count }

/-- The tokenizer as the main loop calls it, `getline` handing over the line with its
newline: the characters copied into the tokens, in order, and `token_count`. -/
def tokenize (line : List Char) : Except ParseError (List Token × Nat) :=
  Except.map (fun p => (p.arr, p.token_count)) (parseTokens (line ++ ['\n']))

/-- The strings that `strcmp`, `strlen`, `open` and `execvp` find at the entries of
the array, from entry `k` on: the characters of the entry when its buffer ends in a
NUL, and otherwise these characters followed by `after k`, the bytes that lie behind
the buffer of entry `k` in memory up to the first NUL. -/
def cStringsFrom (after : Nat → List Char) : Nat → List Token → List Bool → List Token
  | _, [], _ => []
  | k, tk :: arr, [] => tk :: cStringsFrom after (k + 1) arr []
  | k, tk :: arr, t :: ts =>
    (if t then tk else tk ++ after k) :: cStringsFrom after (k + 1) arr ts

/-- The array of `parseTokens` as the rest of the program reads it. -/
def Parsed.cStrings (after : Nat → List Char) (p : Parsed) : List Token :=
  cStringsFrom after 0 p.arr p.terminated

/-! ### The indices at which the scan touches the line buffer -/

/-- The indices read by `strncpy(tk, str+start, sz)`. -/
def copyReads (start sz : Nat) : List Nat :=
  List.range' start sz

/-- The indices at which the loop of line 70 reads `str`, entered with `i` on the
opening quote. -/
def closeQuoteReads (str : List Char) (len : Nat) : Nat → Nat → List Nat
  | 0, _ => []
  | fuel + 1, i =>
    if i + 1 < len then
      (i + 1) ::
        match charAt str (i + 1) with
        | none => []
        | some c => if c ≠ '"' then closeQuoteReads str len fuel (i + 1) else []
    else []

/-- The indices at which the loop of lines 67-103 reads `str`, in the order of the
reads: the tests on `str[i]`, the inner loop of a quoted span, the look-behind
`str[i-1]` and the copies into the tokens. `last` is `lastIndex`. -/
def scanReads (str : List Char) (len : Nat) : Nat → Nat → Nat → List Nat
  | 0, _, _ => []
  | fuel + 1, i, last =>
    if i ≤ len then
      i ::
        match charAt str i with
        | none => []
        | some c =>
          if c = '"' then
            closeQuoteReads str len (len + 1) i ++
              match closeQuote str len (len + 1) i with
              | .error _ => []
              | .ok i1 =>
                if i1 = len then []
                else copyReads (i + 1) (i1 - (i + 1)) ++ scanReads str len fuel (i1 + 1) last
          else if c = ' ' then
            (if 0 < i then [i - 1] else []) ++
              match afterSpace str i with
              | .error _ => []
              | .ok true => scanReads str len fuel (i + 1) (i + 1)
              | .ok false =>
                copyReads last (i - last) ++ scanReads str len fuel (i + 1) (i + 1)
          else scanReads str len fuel (i + 1) last
    else []

/-! ## The redirection scan of the child (`main`, lines 162-209) -/

/-- The two ways in which the scan opens a file. -/
inductive OpenMode where
  /-- The operand of `>`: `O_CREAT | O_RDWR`, mode `0666`. -/
  | createReadWrite
  /-- The operand of `<`: `O_RDONLY`. -/
  | readOnly
  deriving DecidableEq, Repr

/-- The state of the child during the scan: `lindex` and `pipesPresent` are the
variables of the source, `opened` lists the calls of `open` in the order they are
made, and `stdin`, `stdout` name the file that the descriptor refers to after the
`dup2` calls (`none`: the stream inherited from the shell). -/
structure ChildState where
  lindex : Nat
  pipesPresent : Nat
  opened : List (OpenMode × Token)
  stdin : Option Token
  stdout : Option Token
  deriving DecidableEq, Repr

/-- Lines 182-189: `>` found at index `j`, its operand `path` is opened for output.
When `open` fails, `dup2(-1, STDOUT_FILENO)` fails and the stream stays as it is. -/
def ChildState.redirectOut (canOpen : OpenMode → Token → Bool) (j : Nat) (path : Token)
    (st : ChildState) : ChildState :=
  { st with
    lindex := j
    pipesPresent := st.pipesPresent + 1
    opened := st.opened ++ [(.createReadWrite, path)]
    stdout := if canOpen .createReadWrite path then some path else st.stdout }

/-- Lines 193-200: `<` found at index `j`, its operand `path` is opened for input. -/
def ChildState.redirectIn (canOpen : OpenMode → Token → Bool) (j : Nat) (path : Token)
    (st : ChildState) : ChildState :=
  { st with
    lindex := j
    pipesPresent := st.pipesPresent + 1
    opened := st.opened ++ [(.readOnly, path)]
    stdin := if canOpen .readOnly path then some path else st.stdin }

/-- The body of the scan for one index `j` (lines 178-202); `args[j]` and `args[j+1]`
are `tokens[j]` and `tokens[j+1]`, as copied by lines 167-168. -/
def scanStep (canOpen : OpenMode → Token → Bool) (tokens : List Token) (j : Nat)
    (st : ChildState) : ChildState :=
  match tokens[j]?, tokens[j + 1]? with
  | some ct, some path =>
    if ct.length = 1 then
      if ct.head? = some '>' then st.redirectOut canOpen j path
      else if ct.head? = some '<' then st.redirectIn canOpen j path
      else st
    else st
  | _, _ => st

/-- The loop `for(j=i-2; j>0; j--)` of lines 175-203, entered with the value of `j`. -/
def redirScan (canOpen : OpenMode → Token → Bool) (tokens : List Token) :
    Nat → ChildState → ChildState
  | 0, st => st
  | j + 1, st =>
    if st.pipesPresent ≥ 2 then st
    else redirScan canOpen tokens j (scanStep canOpen tokens (j + 1) st)

/-- The loop `for(j=lindex;j<i;j++) args[j] = NULL;` of lines 206-207, with `n`
iterations left. -/
def nullFrom : Nat → Nat → List (Option Token) → List (Option Token)
  | 0, _, args => args
  | n + 1, j, args => nullFrom n (j + 1) (args.set j none)

/-- The argument vector that `execvp` reads: the entries before the first `NULL`. -/
def argvOf : List (Option Token) → List Token
  | [] => []
  | none :: _ => []
  | some t :: rest => t :: argvOf rest

/-- What the child hands to `execvp`, and the state of its streams at that point. -/
structure Resolved where
  argv : List Token
  state : ChildState
  deriving DecidableEq, Repr

/-- The child from line 165 to the call of `execvp` in line 209; `pipesPresent` is 0
on entry (line 129). -/
def resolve (canOpen : OpenMode → Token → Bool) (tokens : List Token) : Resolved :=
  let i := tokens.length
  let args := tokens.map some ++ [none]
  let st0 : ChildState :=
    { lindex := i, pipesPresent := 0, opened := [], stdin := none, stdout := none }
  let st := if i > 2 then redirScan canOpen tokens (i - 2) st0 else st0
  { argv := argvOf (nullFrom (i - st.lindex) st.lindex args), state := st }

/-- The targets of a command: at most one for input and one for output. -/
structure RedirectionPlan where
  input : Option Token
  output : Option Token
  deriving DecidableEq, Repr

/-- The plan that a sequence of `open` calls amounts to: each call names the target
of its stream, a later call for the same stream replacing an earlier one. -/
def planOf (opened : List (OpenMode × Token)) : RedirectionPlan :=
  opened.foldl
    (fun p e =>
      match e.1 with
      | .createReadWrite => { p with output := some e.2 }
      | .readOnly => { p with input := some e.2 })
    { input := none, output := none }

/-- The plan of a resolved command. -/
def Resolved.plan (r : Resolved) : RedirectionPlan :=
  planOf r.state.opened

/-! ## The loop of `main` (lines 121-226) -/

/-- What `fork` (line 156) returns in the process at hand. -/
inductive ForkReturn where
  /-- The value 0: the process is the child. -/
  | child
  /-- A process id: the process is the shell that called `fork`. -/
  | parent
  /-- The value -1: no child exists. -/
  | failed
  deriving DecidableEq, Repr

/-- The surroundings of one pass through the body of the loop: whether `open`
succeeds, what `fork` returns, whether `execvp` finds and starts the program, and the
bytes that lie behind the buffer of the `k`-th token up to the first NUL. -/
structure Env where
  canOpen : OpenMode → Token → Bool
  forkReturn : ForkReturn
  execvpOk : Token → List Token → Bool
  heapAfter : Nat → List Char

/-- Where a process stands after one pass through the body of `while(1)`. -/
inductive Next where
  /-- The next iteration begins: `readline(ps1)` of line 123 is called. -/
  | prompt
  /-- The process called `exit` with this status. -/
  | exited (status : Nat)
  /-- The call `execvp(file, argv)` did not return: the process runs that program. -/
  | replaced (file : Token) (argv : List Token)
  /-- The pass left the arrays it works on. -/
  | undefined (e : ParseError)
  deriving DecidableEq, Repr

/-- What one pass through the body of the loop did in the process at hand. -/
structure Pass where
  /-- The line was handed to `parseTokens` (line 130). -/
  parsed : Bool
  /-- The directory handed to `changeDirectory` (line 137). -/
  chdir : Option Token
  /-- The call `fork()` of line 156 was made. -/
  forkCalled : Bool
  /-- The outcome of the redirection scan, run by the child only. -/
  resolved : Option Resolved
  next : Next
  deriving DecidableEq, Repr

/-- The function `readline` (lines 31-48) when `getline` has read the characters
`got`, newline included (`x` is their number): `NULL` when `x == 1`. -/
def readline (got : List Char) : Option (List Char) :=
  if got.length = 1 then none else some got

/-- The default directory of `cd` (line 136). -/
def homeDir : Token := "/home/a-star/".toList

/-- The branch that the body of the loop takes on the tokens (lines 135-156). -/
inductive Route where
  /-- The built-in `cd` with the directory handed to `changeDirectory`. -/
  | cd (dir : Token)
  /-- The built-in `exit`. -/
  | exitShell
  /-- An external command: `fork`, then `execvp(file, args)` in the child. -/
  | external (file : Token)
  deriving DecidableEq, Repr

/-- The tests `strcmp(tokens[0],"cd")==0` and `strcmp(tokens[0], "exit")==0` and the
choice of the directory in line 136. `none`: a read outside `tokens`. -/
def route (tokens : List Token) (token_count : Nat) : Option Route :=
  match tokens[0]? with
  | none => none
  | some t0 =>
    if t0 = "cd".toList then
      if token_count = 1 then some (.cd homeDir) else (tokens[1]?).map Route.cd
    else if t0 = "exit".toList then some .exitShell
    else some (.external t0)

/-- Lines 133-225: the body of the loop from the tokens on. After a failed `execvp`
(lines 209-215) the child leaves the `if` and reaches the end of the body. -/
def dispatch (env : Env) (tokens : List Token) (token_count : Nat) : Pass :=
  match route tokens token_count with
  | none =>
    { parsed := true, chdir := none, forkCalled := false, resolved := none,
      next := .undefined .outOfBounds }
  | some (.cd dir) =>
    { parsed := true, chdir := some dir, forkCalled := false, resolved := none,
      next := .prompt }
  | some .exitShell =>
    { parsed := true, chdir := none, forkCalled := false, resolved := none,
      next := .exited 0 }
  | some (.external file) =>
    match env.forkReturn with
    | .child =>
      let r := resolve env.canOpen tokens
      { parsed := true, chdir := none, forkCalled := true, resolved := some r,
        next := if env.execvpOk file r.argv then .replaced file r.argv else .prompt }
    | .parent =>
      { parsed := true, chdir := none, forkCalled := true, resolved := none,
        next := .prompt }
    | .failed =>
      { parsed := true, chdir := none, forkCalled := true, resolved := none,
        next := .prompt }

/-- One pass through the body of `while(1)` (lines 123-225) on the characters that
`getline` read. The unterminated quote ends the process with `EXIT_FAILURE`; the
tokens reach the tests and the child as the strings that are read at the entries. -/
def loopBody (env : Env) (got : List Char) : Pass :=
  match readline got with
  | none =>
    { parsed := false, chdir := none, forkCalled := false, resolved := none,
      next := .prompt }
  | some line =>
    match parseTokens line with
    | .error .unterminatedQuote =>
      { parsed := true, chdir := none, forkCalled := false, resolved := none,
        next := .exited 1 }
    | .error e =>
      { parsed := true, chdir := none, forkCalled := false, resolved := none,
        next := .undefined e }
    | .ok p => dispatch env (p.cStrings env.heapAfter) p.token_count

/-! ## The notions the properties are stated with -/

/-- The maximal runs of non-space characters of a line, left to right: the
non-empty pieces between spaces. -/
def nonSpaceRuns (line : List Char) : List Token :=
  (line.splitOn ' ').filter (fun w => !w.isEmpty)

/-- Every second element of a list, starting with the second one. -/
def oddElems : List Token → List Token
  | [] => []
  | [_] => []
  | _ :: y :: rest => y :: oddElems rest

/-- The texts strictly between the 1st and 2nd, the 3rd and 4th, ... double quote of
a line: the pieces between consecutive quotes that sit at the odd positions. -/
def quotedSpans (line : List Char) : List Token :=
  oddElems (line.splitOn '"')

/-- A redirection operator: a token of exactly one character, `<` or `>`. -/
def isOperator (t : Token) : Bool :=
  decide (t = ['<']) || decide (t = ['>'])

/-- The way `open` is called for the operand of an operator. -/
def modeOf (op : Token) : OpenMode :=
  if op = ['>'] then .createReadWrite else .readOnly

/-- The effect of lines 181-201 for the operator `op` at index `j`. -/
def ChildState.applyOp (canOpen : OpenMode → Token → Bool) (op : Token) (j : Nat)
    (path : Token) (st : ChildState) : ChildState :=
  if op = ['>'] then st.redirectOut canOpen j path else st.redirectIn canOpen j path

/-- The tokens joined with single spaces. -/
def joinWithSpaces (ts : List Token) : List Char :=
  List.intercalate [' '] ts

/-- A word of a command line: a run of characters written as it is, or a text written
between double quotes. -/
inductive Word where
  | plain (r : List Char)
  | quoted (q : List Char)
  deriving DecidableEq, Repr

/-- The characters of a word as they stand in the line. -/
def Word.render : Word → List Char
  | .plain r => r
  | .quoted q => '"' :: (q ++ ['"'])

/-- A plain word is non-empty and holds neither a space nor a double quote; the text
of a quoted word holds no double quote. -/
def Word.wellFormed : Word → Prop
  | .plain r => r ≠ [] ∧ ' ' ∉ r ∧ '"' ∉ r
  | .quoted q => '"' ∉ q

instance (w : Word) : Decidable w.wellFormed := by
  cases w <;> unfold Word.wellFormed <;> infer_instance

/-- Whether the word is written between double quotes. -/
def Word.isQuoted : Word → Bool
  | .plain _ => false
  | .quoted _ => true

/-- The tokens that the scan appends for a word: a plain word once, a quoted word as
the text between its quotes and then once more as it stands in the line. -/
def Word.scanned : Word → List Token
  | .plain r => [r]
  | .quoted q => [q, '"' :: (q ++ ['"'])]

/-! ## A list-level account of the scan

`lexL sp pend q rest` follows the scan over the characters `rest` that lie before
the sentinel space: `sp` says that the previous character exists and is a space,
`pend` is the text from `lastIndex` up to the current position, and `q` is the
quoted text read so far when the position lies inside a quoted span. -/

/-- The tokens that the scan appends from the current position on. -/
def lexL : Bool → List Char → Option (List Char) → List Char → Except ParseError (List Token)
  | sp, pend, none, [] => .ok (if sp then [] else [pend])
  | _, _, some _, [] => .error .unterminatedQuote
  | _, pend, some t, c :: cs =>
    if c = '"' then Except.map (fun ts => t :: ts) (lexL false (pend ++ [c]) none cs)
    else lexL false (pend ++ [c]) (some (t ++ [c])) cs
  | sp, pend, none, c :: cs =>
    if c = '"' then lexL false (pend ++ [c]) (some []) cs
    else if c = ' ' then
      if sp then lexL true [] none cs
      else Except.map (fun ts => pend :: ts) (lexL true [] none cs)
    else lexL false (pend ++ [c]) none cs

/-! ### Reads and copies on a string given as an append -/

theorem charAt_append_cons (pre : List Char) (c : Char) (post : List Char) :
    charAt (pre ++ c :: post) pre.length = some c := by
  unfold charAt
  rw [if_pos (by simp), List.getElem?_append_right (le_refl _)]
  simp

theorem charAt_snoc_append (pre : List Char) (c : Char) (post : List Char) :
    charAt (pre ++ [c] ++ post) pre.length = some c := by
  rw [List.append_assoc]
  exact charAt_append_cons pre c post

theorem slice_append_left (pre post : List Char) (k : Nat) (_hk : k ≤ pre.length) :
    slice (pre ++ post) k (pre.length - k) = pre.drop k := by
  unfold slice
  rw [List.drop_append_of_le_length _hk, List.take_append_of_le_length (by simp)]
  exact List.take_of_length_le (by simp)

theorem slice_middle (pre a post : List Char) :
    slice (pre ++ a ++ post) pre.length a.length = a := by
  simp [slice, List.append_assoc]

theorem charAt_succ (p : List Char) (x y : Char) (post : List Char) :
    charAt (p ++ x :: y :: post) (p.length + 1) = some y := by
  have h := charAt_append_cons (p ++ [x]) y post
  simpa using h

/-- The inner loop stops on the first quote after the opening one, or at `len`. -/
theorem closeQuote_spec (len : Nat) (r : List Char) :
    ∀ (a p : List Char) (x : Char) (fuel : Nat), '"' ∉ a →
      p.length + 1 + a.length ≤ len → a.length < fuel →
      (p.length + 1 + a.length < len → ∃ r1, r = '"' :: r1) →
      closeQuote (p ++ x :: (a ++ r)) len fuel p.length = .ok (p.length + 1 + a.length) := by
  intro a
  induction a with
  | nil =>
    intro p x fuel _ hle hfuel hr
    obtain ⟨f, rfl⟩ : ∃ f, fuel = f + 1 := ⟨fuel - 1, by simp at hfuel; omega⟩
    unfold closeQuote
    by_cases h : p.length + 1 < len
    · obtain ⟨r1, rfl⟩ := hr (by simpa using h)
      simp [h, charAt_succ]
    · simp [h]
  | cons y a ih =>
    intro p x fuel hq hle hfuel hr
    obtain ⟨f, rfl⟩ : ∃ f, fuel = f + 1 := ⟨fuel - 1, by simp at hfuel; omega⟩
    have hy : y ≠ '"' := fun h => hq (by simp [h])
    have hq1 : '"' ∉ a := fun h => hq (by simp [h])
    simp only [List.length_cons] at hle hfuel hr
    have hlt : p.length + 1 < len := by omega
    unfold closeQuote
    have hc : charAt (p ++ x :: (y :: a ++ r)) (p.length + 1) = some y := by
      simpa using charAt_succ p x y (a ++ r)
    have key := ih (p ++ [x]) y f hq1 (by simp; omega) (by omega)
      (by intro h; apply hr; simp at h; omega)
    simp only [List.length_append, List.length_singleton, List.append_assoc,
      List.singleton_append] at key
    simp only [hlt, if_true, hc, hy, ne_eq, not_false_eq_true, List.length_cons]
    rw [show y :: a ++ r = y :: (a ++ r) from rfl, key]
    congr 1
    omega

/-! ### The list-level scan inside a quoted span -/

theorem lexL_quote_missing : ∀ (a : List Char) (sp : Bool) (pend t : List Char), '"' ∉ a →
    lexL sp pend (some t) a = .error .unterminatedQuote := by
  intro a
  induction a with
  | nil => intro sp pend t _; rfl
  | cons y a ih =>
    intro sp pend t hq
    have hy : y ≠ '"' := fun h => hq (by simp [h])
    have hq1 : '"' ∉ a := fun h => hq (by simp [h])
    simp only [lexL, hy, if_false]
    exact ih _ _ _ hq1

theorem lexL_quote_found : ∀ (a : List Char) (sp : Bool) (pend t r : List Char), '"' ∉ a →
    lexL sp pend (some t) (a ++ '"' :: r) =
      Except.map (fun ts => (t ++ a) :: ts) (lexL false (pend ++ a ++ ['"']) none r) := by
  intro a
  induction a with
  | nil => intro sp pend t r _; simp [lexL]
  | cons y a ih =>
    intro sp pend t r hq
    have hy : y ≠ '"' := fun h => hq (by simp [h])
    have hq1 : '"' ∉ a := fun h => hq (by simp [h])
    rw [List.cons_append]
    simp only [lexL, hy, if_false]
    rw [ih _ _ _ _ hq1]
    simp [List.append_assoc]

/-- A list that holds a quote splits at its first quote. -/
theorem split_first_quote : ∀ (l : List Char), '"' ∈ l →
    ∃ a r, l = a ++ '"' :: r ∧ '"' ∉ a := by
  intro l
  induction l with
  | nil => intro h; simp at h
  | cons c cs ih =>
    intro h
    by_cases hc : c = '"'
    · exact ⟨[], cs, by simp [hc], by simp⟩
    · have hcs : '"' ∈ cs := by
        rcases List.mem_cons.1 h with h1 | h1
        · exact absurd h1.symm hc
        · exact h1
      obtain ⟨a, r, rfl, ha⟩ := ih hcs
      refine ⟨c :: a, r, by simp, ?_⟩
      intro hm
      rcases List.mem_cons.1 hm with h1 | h1
      · exact hc h1.symm
      · exact ha h1

/-! ### The scan of the source follows the list-level scan -/

theorem Except.map_map_comp {ε α β γ : Type} (f : α → β) (g : β → γ) (x : Except ε α) :
    Except.map g (Except.map f x) = Except.map (fun a => g (f a)) x := by
  cases x <;> rfl

theorem afterSpace_append (pre post : List Char) :
    afterSpace (pre ++ post) pre.length = .ok (decide (pre.getLast? = some ' ')) := by
  rcases List.eq_nil_or_concat pre with rfl | ⟨b, c, rfl⟩
  · simp [afterSpace]
  · have h : charAt (b ++ c :: post) b.length = some c := charAt_append_cons b c post
    simp [afterSpace, h]

/-- The last iteration, on the sentinel space at index `len`. -/
theorem scanLoop_sentinel (pre tail : List Char) (st : ParseState) (fuel : Nat)
    (hfuel : 2 ≤ fuel) :
    Except.map (fun s => (s.arr, s.token_count))
        (scanLoop (pre ++ ' ' :: tail) pre.length fuel pre.length st) =
      Except.map (fun ts => (st.arr ++ ts, st.token_count + ts.length))
        (lexL (decide (pre.getLast? = some ' ')) (pre.drop st.lastIndex) none []) := by
  obtain ⟨f, rfl⟩ : ∃ f, fuel = f + 2 := ⟨fuel - 2, by omega⟩
  have hc : charAt (pre ++ ' ' :: tail) pre.length = some ' ' := charAt_append_cons _ _ _
  have ha := afterSpace_append pre (' ' :: tail)
  have hne : (' ' : Char) ≠ '"' := by decide
  by_cases hsp : pre.getLast? = some ' '
  · simp [scanLoop, hc, ha, hsp, hne, lexL, Except.map]
  · by_cases hk : st.lastIndex ≤ pre.length
    · have hsl := slice_append_left pre (' ' :: tail) st.lastIndex hk
      simp [scanLoop, hc, ha, hsp, hne, lexL, Except.map, ParseState.push, hsl]
    · have hd : pre.drop st.lastIndex = [] := List.drop_eq_nil_of_le (by omega)
      have hsl : slice (pre ++ ' ' :: tail) st.lastIndex (pre.length - st.lastIndex) = [] := by
        have : pre.length - st.lastIndex = 0 := by omega
        simp [slice, this]
      simp [scanLoop, hc, ha, hsp, hne, lexL, Except.map, ParseState.push, hsl, hd]

/-- From any position outside a quoted span, the scan of the source appends the
tokens that the list-level scan produces for the rest of the line. -/
theorem scanLoop_refines (tail : List Char) :
    ∀ (n : Nat) (pre rest : List Char) (st : ParseState) (fuel : Nat) (s : List Char)
      (len i : Nat), s = pre ++ (rest ++ ' ' :: tail) → len = pre.length + rest.length →
      i = pre.length → rest.length ≤ n → st.lastIndex ≤ pre.length → rest.length + 2 ≤ fuel →
      Except.map (fun s => (s.arr, s.token_count)) (scanLoop s len fuel i st) =
        Except.map (fun ts => (st.arr ++ ts, st.token_count + ts.length))
          (lexL (decide (pre.getLast? = some ' ')) (pre.drop st.lastIndex) none rest) := by
  intro n
  induction n with
  | zero =>
    intro pre rest st fuel s len i hs hlen hi hn _ hfuel
    have hrest : rest = [] := List.length_eq_zero.1 (by omega)
    subst hrest
    subst hs hi
    simp only [List.length_nil, Nat.add_zero] at hlen
    subst hlen
    exact scanLoop_sentinel pre tail st fuel (by simpa using hfuel)
  | succ n ih =>
    intro pre rest st fuel s len i hs hlen hi hn hk hfuel
    cases rest with
    | nil =>
      subst hs hi
      simp only [List.length_nil, Nat.add_zero] at hlen
      subst hlen
      exact scanLoop_sentinel pre tail st fuel (by simpa using hfuel)
    | cons c cs =>
      simp only [List.length_cons] at hlen hn hfuel
      obtain ⟨f, rfl⟩ : ∃ f, fuel = f + 1 := ⟨fuel - 1, by omega⟩
      have hc : charAt s i = some c := by
        rw [hs, hi]; exact charAt_append_cons _ _ _
      have hile : i ≤ len := by omega
      have hdrop : (pre ++ [c]).drop st.lastIndex = pre.drop st.lastIndex ++ [c] :=
        List.drop_append_of_le_length hk
      by_cases hcq : c = '"'
      · subst hcq
        by_cases hq : '"' ∈ cs
        · obtain ⟨a, r, rfl, ha⟩ := split_first_quote cs hq
          simp only [List.length_append, List.length_cons] at hlen hn hfuel
          have hcl : closeQuote s len (len + 1) i = .ok (i + 1 + a.length) := by
            have h := closeQuote_spec len ('"' :: (r ++ ' ' :: tail)) a pre '"' (len + 1) ha
              (by omega) (by omega) (fun _ => ⟨_, rfl⟩)
            rw [hs, hi]
            simpa [List.append_assoc] using h
          have hsl : slice s (i + 1) (i + 1 + a.length - (i + 1)) = a := by
            have h := slice_middle (pre ++ ['"']) a ('"' :: (r ++ ' ' :: tail))
            have e : i + 1 + a.length - (i + 1) = a.length := by omega
            rw [e, hs, hi]
            simpa [List.append_assoc] using h
          have hne : i + 1 + a.length ≠ len := by omega
          have key := ih (pre ++ '"' :: (a ++ ['"'])) r (st.pushRaw a) f s len
            (i + 1 + a.length + 1)
            (by rw [hs]; simp [List.append_assoc]) (by simp; omega) (by simp; omega)
            (by omega) (by simp [ParseState.pushRaw]; omega) (by omega)
          have hdrop2 : (pre ++ '"' :: (a ++ ['"'])).drop st.lastIndex =
              pre.drop st.lastIndex ++ '"' :: (a ++ ['"']) :=
            List.drop_append_of_le_length hk
          have hlast : (pre ++ '"' :: (a ++ ['"'])).getLast? = some '"' := by
            have : pre ++ '"' :: (a ++ ['"']) = (pre ++ '"' :: a) ++ ['"'] := by simp
            rw [this, List.getLast?_append]
            simp
          unfold scanLoop
          simp only [hile, if_true, hc, hcl, hne, if_false, hsl]
          rw [key]
          simp only [lexL, if_true]
          rw [lexL_quote_found a _ _ _ _ ha, Except.map_map_comp]
          simp [ParseState.pushRaw, hdrop2, hlast, List.append_assoc, Nat.add_assoc,
            Nat.add_comm 1]
        · have hcl : closeQuote s len (len + 1) i = .ok len := by
            have h := closeQuote_spec len (' ' :: tail) cs pre '"' (len + 1) hq
              (by omega) (by omega) (fun h => absurd h (by omega))
            rw [hs, hi]
            have e : pre.length + 1 + cs.length = len := by omega
            rw [e] at h
            simpa [List.append_assoc] using h
          unfold scanLoop
          simp only [hile, if_true, hc, hcl, lexL]
          rw [lexL_quote_missing cs _ _ _ hq]
          rfl
      · have key : ∀ st1 : ParseState, st1.lastIndex ≤ pre.length + 1 →
            Except.map (fun s => (s.arr, s.token_count)) (scanLoop s len f (i + 1) st1) =
              Except.map (fun ts => (st1.arr ++ ts, st1.token_count + ts.length))
                (lexL (decide ((pre ++ [c]).getLast? = some ' '))
                  ((pre ++ [c]).drop st1.lastIndex) none cs) := by
          intro st1 h1
          exact ih (pre ++ [c]) cs st1 f s len (i + 1)
            (by rw [hs]; simp [List.append_assoc]) (by simp; omega) (by simp; omega)
            (by omega) (by simpa using h1) (by omega)
        have hlast : (pre ++ [c]).getLast? = some c := by simp
        by_cases hcs : c = ' '
        · subst hcs
          have ha : afterSpace s i = .ok (decide (pre.getLast? = some ' ')) := by
            rw [hs, hi]; exact afterSpace_append _ _
          have hsl : slice s st.lastIndex (i - st.lastIndex) = pre.drop st.lastIndex := by
            rw [hs, hi]; exact slice_append_left _ _ _ hk
          unfold scanLoop
          by_cases hsp : pre.getLast? = some ' '
          · have k1 := key { st with lastIndex := i + 1 } (by simp; omega)
            simp only [hile, if_true, hc, hcq, if_false, ha, hsp, decide_True]
            rw [k1]
            simp [lexL, hi]
          · have k1 := key { (st.push (pre.drop st.lastIndex)) with lastIndex := i + 1 }
              (by simp; omega)
            simp only [hile, if_true, hc, hcq, if_false, ha, hsp, decide_False, hsl]
            rw [k1]
            simp only [lexL, hcq, if_false, if_true, hsp, decide_False, Bool.false_eq_true]
            rw [Except.map_map_comp]
            simp [ParseState.push, hi, List.append_assoc, Nat.add_assoc, Nat.add_comm 1]
        · have k1 := key st (by omega)
          unfold scanLoop
          simp only [hile, if_true, hc, hcq, hcs, if_false]
          rw [k1]
          simp [lexL, hcq, hcs, hdrop]

/-! ### Trimming, and `tokenize` as a list-level scan -/

/-- A line with a non-space character ends in a non-space character followed by
spaces only. -/
theorem split_trailing_spaces : ∀ (line : List Char), (∃ c ∈ line, c ≠ ' ') →
    ∃ b c k, line = b ++ c :: List.replicate k ' ' ∧ c ≠ ' ' := by
  intro line
  induction line using List.reverseRecOn with
  | nil => rintro ⟨c, hc, _⟩; simp at hc
  | append_singleton l x ih =>
    rintro ⟨c, hc, hne⟩
    by_cases hx : x = ' '
    · subst hx
      have hl : ∃ c ∈ l, c ≠ ' ' := by
        rcases List.mem_append.1 hc with h | h
        · exact ⟨c, h, hne⟩
        · simp at h; exact absurd h hne
      obtain ⟨b, d, k, rfl, hd⟩ := ih hl
      refine ⟨b, d, k + 1, ?_, hd⟩
      simp [List.replicate_succ']
    · exact ⟨l, x, 0, by simp, hx⟩

theorem trimLoop_stop (str : List Char) (m : Nat) (c : Char) (h : charAt str m = some c)
    (hc : c ≠ ' ') : trimLoop str m = .ok m := by
  cases m <;> simp [trimLoop, h, hc]

theorem trimLoop_spec (b : List Char) (c : Char) (hc : c ≠ ' ') :
    ∀ (k : Nat) (t : List Char),
      trimLoop (b ++ c :: (List.replicate k ' ' ++ t)) (b.length + k) = .ok b.length := by
  intro k
  induction k with
  | zero =>
    intro t
    exact trimLoop_stop _ _ c (charAt_append_cons _ _ _) hc
  | succ k ih =>
    intro t
    have e : b ++ c :: (List.replicate (k + 1) ' ' ++ t) =
        (b ++ c :: List.replicate k ' ') ++ ' ' :: t := by
      simp [List.replicate_succ']
    have h : charAt (b ++ c :: (List.replicate (k + 1) ' ' ++ t)) (b.length + k + 1) =
        some ' ' := by
      rw [e]
      have := charAt_append_cons (b ++ c :: List.replicate k ' ') ' ' t
      simpa [Nat.add_assoc, Nat.add_comm 1] using this
    have e2 : b ++ c :: (List.replicate (k + 1) ' ' ++ t) =
        b ++ c :: (List.replicate k ' ' ++ ' ' :: t) := by
      simp [List.replicate_succ']
    show trimLoop _ (b.length + k + 1) = _
    simp only [trimLoop, h, if_true]
    rw [e2]
    exact ih (' ' :: t)

theorem set_sentinel (p : List Char) (y : Char) (ys : List Char) :
    (p ++ y :: ys).set p.length ' ' = p ++ ' ' :: ys := by
  induction p with
  | nil => rfl
  | cons a p ih => simp [ih]

theorem lexL_spaces_after_space : ∀ (k : Nat),
    lexL true [] none (List.replicate k ' ') = .ok [] := by
  intro k
  induction k with
  | zero => rfl
  | succ k ih => simp [List.replicate_succ, lexL, ih]

/-- Spaces at the end of the line add nothing to what the list-level scan yields. -/
theorem lexL_trailing_spaces (c : Char) (hc : c ≠ ' ') (k : Nat) :
    ∀ (b : List Char) (sp : Bool) (pend : List Char) (q : Option (List Char)),
      lexL sp pend q (b ++ c :: List.replicate k ' ') = lexL sp pend q (b ++ [c]) := by
  have hsp : ∀ pend : List Char,
      lexL false pend none (List.replicate k ' ') = lexL false pend none [] := by
    intro pend
    cases k with
    | zero => rfl
    | succ k => simp [List.replicate_succ, lexL, lexL_spaces_after_space, Except.map]
  have hqs : ∀ (pend t : List Char),
      lexL false pend (some t) (List.replicate k ' ') = lexL false pend (some t) [] := by
    intro pend t
    rw [lexL_quote_missing _ _ _ _ (by simp [List.mem_replicate])]
    rfl
  intro b
  induction b with
  | nil =>
    intro sp pend q
    cases q with
    | none =>
      by_cases hq : c = '"'
      · simp [lexL, hq, hqs]
      · simp [lexL, hq, hc, hsp]
    | some t =>
      by_cases hq : c = '"'
      · simp [lexL, hq, hsp]
      · simp [lexL, hq, hqs]
  | cons x b ih =>
    intro sp pend q
    cases q with
    | none =>
      by_cases hq : x = '"'
      · simp [lexL, hq, ih]
      · by_cases hx : x = ' '
        · cases sp <;> simp [lexL, hx, ih]
        · simp [lexL, hq, hx, ih]
    | some t =>
      by_cases hq : x = '"'
      · simp [lexL, hq, ih]
      · simp [lexL, hq, ih]

/-- On a line with a non-space character `tokenize` returns what the list-level scan
of the line yields, and leaves its length in `token_count`. -/
theorem tokenize_eq_lexL (line : List Char) (h : ∃ c ∈ line, c ≠ ' ') :
    tokenize line = Except.map (fun ts => (ts, ts.length)) (lexL false [] none line) := by
  obtain ⟨b, c, k, rfl, hc⟩ := split_trailing_spaces line h
  rw [lexL_trailing_spaces c hc k b]
  have hlen : (b ++ c :: List.replicate k ' ' ++ ['\n']).length = b.length + k + 2 := by
    simp; omega
  have htrim : trimLoop (b ++ c :: List.replicate k ' ' ++ ['\n']) (b.length + k) =
      .ok b.length := by
    have := trimLoop_spec b c hc k ['\n']
    simpa [List.append_assoc] using this
  obtain ⟨y, ys, hy⟩ : ∃ y ys, List.replicate k ' ' ++ ['\n'] = y :: ys := by
    cases k with
    | zero => exact ⟨_, _, rfl⟩
    | succ k => exact ⟨' ', List.replicate k ' ' ++ ['\n'], by simp [List.replicate_succ]⟩
  have hset : (b ++ c :: List.replicate k ' ' ++ ['\n']).set (b.length + 1) ' ' =
      [] ++ ((b ++ [c]) ++ ' ' :: ys) := by
    have := set_sentinel (b ++ [c]) y ys
    rw [← hy] at this
    simpa [List.append_assoc] using this
  have key := scanLoop_refines ys (b.length + 1) [] (b ++ [c])
    { arr := [], terminated := [], token_count := 0, lastIndex := 0 } (b.length + 1 + 2) _
    (b.length + 1) 0 rfl (by simp) rfl (by simp) (by simp) (by simp)
  unfold tokenize parseTokens
  rw [hlen, if_neg (by omega), show b.length + k + 2 - 2 = b.length + k by omega, htrim]
  simp only [hset]
  revert key
  cases scanLoop ([] ++ (b ++ [c] ++ ' ' :: ys)) (b.length + 1) (b.length + 1 + 2) 0
      { arr := [], terminated := [], token_count := 0, lastIndex := 0 } with
  | error e =>
    intro key
    cases hL : lexL false [] none (b ++ [c]) with
    | error e2 => simp [hL, Except.map] at key ⊢; exact key
    | ok ts => simp [hL, Except.map] at key
  | ok st =>
    intro key
    cases hL : lexL false [] none (b ++ [c]) with
    | error e2 => simp [hL, Except.map] at key
    | ok ts =>
      simp [hL, Except.map] at key ⊢
      exact key

/-! ### The list-level scan of a line without quotes -/

theorem splitOn_space_ne_nil (l : List Char) : ∃ w0 ws, l.splitOn ' ' = w0 :: ws := by
  cases h : l.splitOn ' ' with
  | nil => exact absurd h (List.splitOnP_ne_nil _ _)
  | cons w0 ws => exact ⟨w0, ws, rfl⟩

theorem splitOn_cons_sep (c : Char) (cs : List Char) :
    (c :: cs).splitOn c = [] :: cs.splitOn c := by
  simp [List.splitOn]

theorem splitOn_cons_other (x c : Char) (cs w0 : List Char) (ws : List (List Char))
    (hc : c ≠ x) (h : cs.splitOn x = w0 :: ws) : (c :: cs).splitOn x = (c :: w0) :: ws := by
  simp only [List.splitOn] at h ⊢
  simp [List.splitOnP_cons, hc, h, List.modifyHead]

/-- The list-level scan of a stretch without quotes, in terms of its pieces between
spaces. -/
theorem lexL_unquoted : ∀ (l : List Char) (sp : Bool) (pend w0 : List Char)
    (ws : List (List Char)), '"' ∉ l → l.splitOn ' ' = w0 :: ws →
    lexL sp pend none l =
      .ok ((if sp = true ∧ w0 = [] then [] else [pend ++ w0]) ++
        ws.filter (fun w => !w.isEmpty)) := by
  intro l
  induction l with
  | nil =>
    intro sp pend w0 ws _ hW
    simp at hW
    obtain ⟨rfl, rfl⟩ := hW
    cases sp <;> simp [lexL]
  | cons c cs ih =>
    intro sp pend w0 ws hq hW
    have hcq : c ≠ '"' := fun h => hq (by simp [h])
    have hq1 : '"' ∉ cs := fun h => hq (by simp [h])
    obtain ⟨v0, vs, hV⟩ := splitOn_space_ne_nil cs
    by_cases hcs : c = ' '
    · subst hcs
      rw [splitOn_cons_sep, hV] at hW
      simp only [List.cons.injEq] at hW
      obtain ⟨rfl, rfl⟩ := hW
      have h1 := ih true [] v0 vs hq1 hV
      cases sp
      · simp only [lexL, hcq, if_false, if_true, h1, Bool.false_eq_true]
        by_cases hv : v0 = [] <;> simp [Except.map, hv]
      · simp only [lexL, hcq, if_false, if_true, h1]
        by_cases hv : v0 = [] <;> simp [hv]
    · rw [splitOn_cons_other ' ' c cs v0 vs hcs hV] at hW
      simp only [List.cons.injEq] at hW
      obtain ⟨rfl, rfl⟩ := hW
      have h1 := ih false (pend ++ [c]) v0 vs hq1 hV
      simp only [lexL, hcq, hcs, if_false, h1]
      simp

/-- The pieces between spaces are free of spaces and made of characters of the line. -/
theorem mem_splitOn_space : ∀ (l : List Char) (w : List Char), w ∈ l.splitOn ' ' →
    ' ' ∉ w ∧ ∀ x ∈ w, x ∈ l := by
  intro l
  induction l with
  | nil =>
    intro w hw
    simp at hw
    subst hw
    simp
  | cons c cs ih =>
    intro w hw
    obtain ⟨v0, vs, hV⟩ := splitOn_space_ne_nil cs
    by_cases hcs : c = ' '
    · subst hcs
      rw [splitOn_cons_sep] at hw
      rcases List.mem_cons.1 hw with rfl | hw
      · simp
      · obtain ⟨h1, h2⟩ := ih w hw
        exact ⟨h1, fun x hx => List.mem_cons_of_mem _ (h2 x hx)⟩
    · rw [splitOn_cons_other ' ' c cs v0 vs hcs hV] at hw
      rcases List.mem_cons.1 hw with rfl | hw
      · obtain ⟨h1, h2⟩ := ih v0 (by rw [hV]; simp)
        constructor
        · intro hm
          rcases List.mem_cons.1 hm with h | h
          · exact hcs h.symm
          · exact h1 h
        · intro x hx
          rcases List.mem_cons.1 hx with h | h
          · simp [h]
          · exact List.mem_cons_of_mem _ (h2 x h)
      · obtain ⟨h1, h2⟩ := ih w (by rw [hV]; exact List.mem_cons_of_mem _ hw)
        exact ⟨h1, fun x hx => List.mem_cons_of_mem _ (h2 x hx)⟩

theorem mem_nonSpaceRuns (line w : List Char) (hw : w ∈ nonSpaceRuns line) :
    w ≠ [] ∧ ' ' ∉ w ∧ ∀ x ∈ w, x ∈ line := by
  unfold nonSpaceRuns at hw
  rw [List.mem_filter] at hw
  obtain ⟨h1, h2⟩ := hw
  refine ⟨?_, mem_splitOn_space line w h1⟩
  intro h
  simp [h] at h2

/-- A line with a non-space character has at least one run. -/
theorem nonSpaceRuns_ne_nil : ∀ (line : List Char), (∃ c ∈ line, c ≠ ' ') →
    nonSpaceRuns line ≠ [] := by
  intro line
  induction line with
  | nil => rintro ⟨c, hc, _⟩; simp at hc
  | cons c cs ih =>
    rintro ⟨x, hx, hne⟩
    obtain ⟨v0, vs, hV⟩ := splitOn_space_ne_nil cs
    by_cases hcs : c = ' '
    · subst hcs
      have hcs : ∃ c ∈ cs, c ≠ ' ' := by
        rcases List.mem_cons.1 hx with h | h
        · exact absurd h hne
        · exact ⟨x, h, hne⟩
      have := ih hcs
      unfold nonSpaceRuns at this ⊢
      rw [splitOn_cons_sep]
      simpa using this
    · unfold nonSpaceRuns
      rw [splitOn_cons_other ' ' c cs v0 vs hcs hV]
      simp

/-- The result of the list-level scan on a whole line without quotes. -/
theorem lexL_line_unquoted (line : List Char) (hq : '"' ∉ line) (h : ∃ c ∈ line, c ≠ ' ') :
    lexL false [] none line =
      .ok (if line.head? = some ' ' then [] :: nonSpaceRuns line else nonSpaceRuns line) := by
  obtain ⟨w0, ws, hW⟩ := splitOn_space_ne_nil line
  rw [lexL_unquoted line false [] w0 ws hq hW]
  cases line with
  | nil => obtain ⟨c, hc, _⟩ := h; simp at hc
  | cons c cs =>
    obtain ⟨v0, vs, hV⟩ := splitOn_space_ne_nil cs
    by_cases hcs : c = ' '
    · subst hcs
      rw [splitOn_cons_sep, hV] at hW
      simp only [List.cons.injEq] at hW
      obtain ⟨rfl, rfl⟩ := hW
      simp [nonSpaceRuns, splitOn_cons_sep, hV]
    · have hW2 := splitOn_cons_other ' ' c cs v0 vs hcs hV
      rw [hW2] at hW
      simp only [List.cons.injEq] at hW
      obtain ⟨rfl, rfl⟩ := hW
      simp [nonSpaceRuns, hW2, hcs]

/-! ### Joining tokens with single spaces -/

theorem intercalate_cons_cons (sep t u : List Char) (ts : List (List Char)) :
    List.intercalate sep (t :: u :: ts) = t ++ sep ++ List.intercalate sep (u :: ts) := by
  simp [List.intercalate, List.intersperse]

theorem mem_intercalate_iff (sep : List Char) : ∀ (ts : List (List Char)) (x : Char),
    x ∈ List.intercalate sep ts → x ∈ sep ∨ ∃ t ∈ ts, x ∈ t := by
  intro ts
  induction ts with
  | nil => intro x hx; simp [List.intercalate] at hx
  | cons t ts ih =>
    intro x hx
    cases ts with
    | nil =>
      simp [List.intercalate] at hx
      exact Or.inr ⟨t, by simp, hx⟩
    | cons u us =>
      rw [intercalate_cons_cons] at hx
      rcases List.mem_append.1 hx with h | h
      · rcases List.mem_append.1 h with h | h
        · exact Or.inr ⟨t, by simp, h⟩
        · exact Or.inl h
      · rcases ih x h with h | ⟨v, hv, hxv⟩
        · exact Or.inl h
        · exact Or.inr ⟨v, List.mem_cons_of_mem _ hv, hxv⟩

theorem mem_intercalate_of_mem (sep : List Char) : ∀ (ts : List (List Char)) (t : List Char)
    (x : Char), t ∈ ts → x ∈ t → x ∈ List.intercalate sep ts := by
  intro ts
  induction ts with
  | nil => intro t x ht; simp at ht
  | cons u ts ih =>
    intro t x ht hx
    cases ts with
    | nil =>
      simp at ht
      subst ht
      simpa [List.intercalate] using hx
    | cons v vs =>
      rw [intercalate_cons_cons]
      rcases List.mem_cons.1 ht with rfl | h
      · simp [hx]
      · exact List.mem_append_right _ (ih t x h hx)

/-- Joining with spaces and tokenizing again, for token lists made of an optional
leading empty token followed by non-empty runs. -/
theorem tokenize_join_runs (lead : Bool) (R : List Token) (hR : R ≠ [])
    (hruns : ∀ w ∈ R, w ≠ [] ∧ ' ' ∉ w ∧ '"' ∉ w) :
    tokenize (joinWithSpaces (if lead then [] :: R else R)) =
      .ok ((if lead then [] :: R else R), (if lead then [] :: R else R).length) := by
  obtain ⟨r, rs, rfl⟩ : ∃ r rs, R = r :: rs := by
    cases R with
    | nil => exact absurd rfl hR
    | cons r rs => exact ⟨r, rs, rfl⟩
  obtain ⟨hr1, hr2, _⟩ := hruns r (by simp)
  obtain ⟨x, xs, rfl⟩ : ∃ x xs, r = x :: xs := by
    cases r with
    | nil => exact absurd rfl hr1
    | cons x xs => exact ⟨x, xs, rfl⟩
  have hx : x ≠ ' ' := fun h => hr2 (by simp [h])
  have hT : ∀ w ∈ (if lead then [] :: (x :: xs) :: rs else (x :: xs) :: rs),
      ' ' ∉ w ∧ '"' ∉ w := by
    intro w hw
    cases lead
    · simp only [Bool.false_eq_true, if_false] at hw
      exact (hruns w hw).2
    · simp only [if_true] at hw
      rcases List.mem_cons.1 hw with rfl | hw
      · simp
      · exact (hruns w hw).2
  have hTne : (if lead then [] :: (x :: xs) :: rs else (x :: xs) :: rs) ≠ [] := by
    cases lead <;> simp
  have hq : '"' ∉ joinWithSpaces (if lead then [] :: (x :: xs) :: rs else (x :: xs) :: rs) := by
    intro hm
    rcases mem_intercalate_iff _ _ _ hm with h | ⟨t, ht, hxt⟩
    · simp at h
    · exact (hT t ht).2 hxt
  have hns : ∃ c ∈ joinWithSpaces (if lead then [] :: (x :: xs) :: rs else (x :: xs) :: rs),
      c ≠ ' ' :=
    ⟨x, mem_intercalate_of_mem _ _ (x :: xs) x (by cases lead <;> simp) (by simp), hx⟩
  have hsplit : (joinWithSpaces (if lead then [] :: (x :: xs) :: rs else (x :: xs) :: rs)).splitOn
      ' ' = (if lead then [] :: (x :: xs) :: rs else (x :: xs) :: rs) :=
    List.splitOn_intercalate _ ' ' (fun l hl => (hT l hl).1) hTne
  have hfilter : ((x :: xs) :: rs).filter (fun w => !w.isEmpty) = (x :: xs) :: rs := by
    rw [List.filter_eq_self]
    intro w hw
    have := (hruns w hw).1
    cases w with
    | nil => exact absurd rfl this
    | cons _ _ => rfl
  have hrunsJ : nonSpaceRuns
      (joinWithSpaces (if lead then [] :: (x :: xs) :: rs else (x :: xs) :: rs)) =
      (x :: xs) :: rs := by
    unfold nonSpaceRuns
    rw [hsplit]
    cases lead
    · simpa using hfilter
    · simp only [if_true]
      rw [List.filter_cons]
      simpa using hfilter
  rw [tokenize_eq_lexL _ hns, lexL_line_unquoted _ hq hns, hrunsJ]
  cases lead
  · simp only [Bool.false_eq_true, if_false]
    cases rs with
    | nil => simp [joinWithSpaces, List.intercalate, Except.map, hx]
    | cons u us =>
      simp [joinWithSpaces, intercalate_cons_cons, Except.map, hx]
  · simp only [if_true]
    simp [joinWithSpaces, intercalate_cons_cons, Except.map]

/-! ### The list-level scan and the quotes of the line -/

theorem Except.map_ok_iff {ε α β : Type} (f : α → β) (x : Except ε α) :
    (∃ b, Except.map f x = .ok b) ↔ ∃ a, x = .ok a := by
  cases x with
  | error e => simp [Except.map]
  | ok a => simp [Except.map]

theorem Except.map_eq_ok {ε α β : Type} (f : α → β) (x : Except ε α) (b : β)
    (h : Except.map f x = .ok b) : ∃ a, x = .ok a ∧ f a = b := by
  cases x with
  | error e => simp [Except.map] at h
  | ok a => exact ⟨a, rfl, by simpa [Except.map] using h⟩

theorem Except.map_eq_error {ε α β : Type} (f : α → β) (x : Except ε α) (e : ε)
    (h : Except.map f x = .error e) : x = .error e := by
  cases x with
  | error e1 => simpa [Except.map] using h
  | ok a => simp [Except.map] at h

/-- The list-level scan has one way to fail. -/
theorem lexL_error : ∀ (l : List Char) (sp : Bool) (pend : List Char) (q : Option (List Char))
    (e : ParseError), lexL sp pend q l = .error e → e = .unterminatedQuote := by
  intro l
  induction l with
  | nil =>
    intro sp pend q e h
    cases q with
    | none => simp [lexL] at h
    | some t => simp [lexL] at h; exact h.symm
  | cons c cs ih =>
    intro sp pend q e h
    cases q with
    | none =>
      by_cases hq : c = '"'
      · simp only [lexL, hq, if_true] at h
        exact ih _ _ _ _ h
      · by_cases hcs : c = ' '
        · subst hcs
          cases sp
          · simp only [lexL, hq, if_false, if_true, Bool.false_eq_true] at h
            exact ih _ _ _ _ (Except.map_eq_error _ _ _ h)
          · simp only [lexL, hq, if_false, if_true] at h
            exact ih _ _ _ _ h
        · simp only [lexL, hq, hcs, if_false] at h
          exact ih _ _ _ _ h
    | some t =>
      by_cases hq : c = '"'
      · simp only [lexL, hq, if_true] at h
        exact ih _ _ _ _ (Except.map_eq_error _ _ _ h)
      · simp only [lexL, hq, if_false] at h
        exact ih _ _ _ _ h

/-- The list-level scan succeeds exactly when the quotes ahead close every span. -/
theorem lexL_ok_iff : ∀ (l : List Char),
    (∀ (sp : Bool) (pend : List Char),
      (∃ ts, lexL sp pend none l = .ok ts) ↔ Even (l.count '"')) ∧
    (∀ (sp : Bool) (pend t : List Char),
      (∃ ts, lexL sp pend (some t) l = .ok ts) ↔ Odd (l.count '"')) := by
  intro l
  induction l with
  | nil =>
    constructor
    · intro sp pend; simp [lexL]
    · intro sp pend t; simp [lexL]
  | cons c cs ih =>
    obtain ⟨ih1, ih2⟩ := ih
    constructor
    · intro sp pend
      by_cases hq : c = '"'
      · subst hq
        simp only [lexL, if_true, List.count_cons_self, Nat.even_add_one,
          Nat.not_even_iff_odd]
        exact ih2 _ _ _
      · have hcount : (c :: cs).count '"' = cs.count '"' := by
          rw [List.count_cons]; simp [hq]
        rw [hcount]
        by_cases hcs : c = ' '
        · subst hcs
          cases sp
          · simp only [lexL, hq, if_false, if_true, Bool.false_eq_true]
            rw [Except.map_ok_iff]
            exact ih1 _ _
          · simp only [lexL, hq, if_false, if_true]
            exact ih1 _ _
        · simp only [lexL, hq, hcs, if_false]
          exact ih1 _ _
    · intro sp pend t
      by_cases hq : c = '"'
      · subst hq
        simp only [lexL, if_true, List.count_cons_self, Nat.odd_add_one,
          Nat.not_odd_iff_even]
        rw [Except.map_ok_iff]
        exact ih1 _ _
      · have hcount : (c :: cs).count '"' = cs.count '"' := by
          rw [List.count_cons]; simp [hq]
        rw [hcount]
        simp only [lexL, hq, if_false]
        exact ih2 _ _ _

/-- A successful list-level scan yields a token unless it starts after a space and
sees spaces only. -/
theorem lexL_ne_nil : ∀ (l : List Char),
    (∀ (sp : Bool) (pend : List Char) (ts : List Token), lexL sp pend none l = .ok ts →
      (sp = false ∨ ∃ c ∈ l, c ≠ ' ') → ts ≠ []) ∧
    (∀ (sp : Bool) (pend t : List Char) (ts : List Token),
      lexL sp pend (some t) l = .ok ts → ts ≠ []) := by
  intro l
  induction l with
  | nil =>
    constructor
    · intro sp pend ts h hor
      rcases hor with rfl | ⟨c, hc, _⟩
      · simp [lexL] at h
        subst h
        simp
      · simp at hc
    · intro sp pend t ts h
      simp [lexL] at h
  | cons c cs ih =>
    obtain ⟨ih1, ih2⟩ := ih
    constructor
    · intro sp pend ts h hor
      by_cases hq : c = '"'
      · simp only [lexL, hq, if_true] at h
        exact ih2 _ _ _ _ h
      · by_cases hcs : c = ' '
        · subst hcs
          cases sp
          · simp only [lexL, hq, if_false, if_true, Bool.false_eq_true] at h
            obtain ⟨a, _, rfl⟩ := Except.map_eq_ok _ _ _ h
            simp
          · simp only [lexL, hq, if_false, if_true] at h
            refine ih1 _ _ _ h (Or.inr ?_)
            rcases hor with h0 | ⟨x, hx, hne⟩
            · simp at h0
            · rcases List.mem_cons.1 hx with h1 | h1
              · exact absurd h1 hne
              · exact ⟨x, h1, hne⟩
        · simp only [lexL, hq, hcs, if_false] at h
          exact ih1 _ _ _ h (Or.inl rfl)
    · intro sp pend t ts h
      by_cases hq : c = '"'
      · simp only [lexL, hq, if_true] at h
        obtain ⟨a, _, rfl⟩ := Except.map_eq_ok _ _ _ h
        simp
      · simp only [lexL, hq, if_false] at h
        exact ih2 _ _ _ _ h

theorem splitOn_quote_ne_nil (l : List Char) : ∃ w0 ws, l.splitOn '"' = w0 :: ws := by
  cases h : l.splitOn '"' with
  | nil => exact absurd h (List.splitOnP_ne_nil _ _)
  | cons w0 ws => exact ⟨w0, ws, rfl⟩

/-- The quoted texts ahead are tokens of the list-level scan, in their order. -/
theorem lexL_quoted_sublist : ∀ (l : List Char) (w0 : List Char) (ws : List (List Char)),
    l.splitOn '"' = w0 :: ws →
    (∀ (sp : Bool) (pend : List Char) (ts : List Token), lexL sp pend none l = .ok ts →
      (oddElems (w0 :: ws)).Sublist ts) ∧
    (∀ (sp : Bool) (pend t : List Char) (ts : List Token),
      lexL sp pend (some t) l = .ok ts → ((t ++ w0) :: oddElems ws).Sublist ts) := by
  intro l
  induction l with
  | nil =>
    intro w0 ws hW
    simp at hW
    obtain ⟨rfl, rfl⟩ := hW
    constructor
    · intro sp pend ts _; simp [oddElems]
    · intro sp pend t ts h; simp [lexL] at h
  | cons c cs ih =>
    intro w0 ws hW
    obtain ⟨v0, vs, hV⟩ := splitOn_quote_ne_nil cs
    obtain ⟨ih1, ih2⟩ := ih v0 vs hV
    by_cases hq : c = '"'
    · subst hq
      rw [splitOn_cons_sep, hV] at hW
      simp only [List.cons.injEq] at hW
      obtain ⟨rfl, rfl⟩ := hW
      constructor
      · intro sp pend ts h
        simp only [lexL, if_true] at h
        simpa [oddElems] using ih2 _ _ _ _ h
      · intro sp pend t ts h
        simp only [lexL, if_true] at h
        obtain ⟨a, ha, rfl⟩ := Except.map_eq_ok _ _ _ h
        have := ih1 _ _ _ ha
        simpa using List.Sublist.cons₂ t this
    · rw [splitOn_cons_other '"' c cs v0 vs hq hV] at hW
      simp only [List.cons.injEq] at hW
      obtain ⟨rfl, rfl⟩ := hW
      have hodd : oddElems ((c :: v0) :: vs) = oddElems (v0 :: vs) := by
        cases vs <;> rfl
      constructor
      · intro sp pend ts h
        rw [hodd]
        by_cases hcs : c = ' '
        · subst hcs
          cases sp
          · simp only [lexL, hq, if_false, if_true, Bool.false_eq_true] at h
            obtain ⟨a, ha, rfl⟩ := Except.map_eq_ok _ _ _ h
            exact List.Sublist.cons _ (ih1 _ _ _ ha)
          · simp only [lexL, hq, if_false, if_true] at h
            exact ih1 _ _ _ h
        · simp only [lexL, hq, hcs, if_false] at h
          exact ih1 _ _ _ h
      · intro sp pend t ts h
        simp only [lexL, hq, if_false] at h
        simpa [List.append_assoc] using ih2 _ _ _ _ h

/-! ### The redirection scan -/

theorem isOperator_iff (t : Token) : isOperator t = true ↔ t = ['<'] ∨ t = ['>'] := by
  simp [isOperator]

theorem scanStep_lindex (canOpen : OpenMode → Token → Bool) (tokens : List Token) (j : Nat)
    (st : ChildState) :
    (scanStep canOpen tokens j st).lindex = st.lindex ∨
      (scanStep canOpen tokens j st).lindex = j := by
  unfold scanStep
  split
  · split
    · split
      · right; rfl
      · split
        · right; rfl
        · left; rfl
    · left; rfl
  · left; rfl

theorem scanStep_not_operator (canOpen : OpenMode → Token → Bool) (tokens : List Token)
    (j : Nat) (st : ChildState) (h : ∀ ct, tokens[j]? = some ct → isOperator ct = false) :
    scanStep canOpen tokens j st = st := by
  unfold scanStep
  split
  · rename_i ct path h1 h2
    have hno := h ct h1
    cases ct with
    | nil => simp
    | cons x xs =>
      cases xs with
      | nil =>
        have hx1 : x ≠ '>' := fun e => by simp [e, isOperator] at hno
        have hx2 : x ≠ '<' := fun e => by simp [e, isOperator] at hno
        simp [hx1, hx2]
      | cons y ys => simp
  · rfl

theorem redirScan_lindex_le (canOpen : OpenMode → Token → Bool) (tokens : List Token) (m : Nat) :
    ∀ (j : Nat) (st : ChildState), st.lindex ≤ m → j ≤ m →
      (redirScan canOpen tokens j st).lindex ≤ m := by
  intro j
  induction j with
  | zero => intro st h _; simpa [redirScan] using h
  | succ j ih =>
    intro st h hj
    unfold redirScan
    split
    · exact h
    · apply ih _ _ (by omega)
      rcases scanStep_lindex canOpen tokens (j + 1) st with e | e <;> rw [e] <;> omega

theorem redirScan_lindex_pos (canOpen : OpenMode → Token → Bool) (tokens : List Token) :
    ∀ (j : Nat) (st : ChildState), 1 ≤ st.lindex →
      1 ≤ (redirScan canOpen tokens j st).lindex := by
  intro j
  induction j with
  | zero => intro st h; simpa [redirScan] using h
  | succ j ih =>
    intro st h
    unfold redirScan
    split
    · exact h
    · apply ih
      rcases scanStep_lindex canOpen tokens (j + 1) st with e | e <;> rw [e] <;> omega

/-- A stretch of the scan that meets no operator leaves the state as it is. -/
theorem redirScan_no_operator (canOpen : OpenMode → Token → Bool) (tokens : List Token) :
    ∀ (j : Nat) (st : ChildState),
      (∀ k ct, 1 ≤ k → k ≤ j → tokens[k]? = some ct → isOperator ct = false) →
      redirScan canOpen tokens j st = st := by
  intro j
  induction j with
  | zero => intro st _; rfl
  | succ j ih =>
    intro st h
    unfold redirScan
    split
    · rfl
    · rw [scanStep_not_operator canOpen tokens (j + 1) st
        (fun ct hct => h (j + 1) ct (by omega) (le_refl _) hct)]
      exact ih st (fun k ct h1 h2 => h k ct h1 (by omega))

/-- With two operators found the scan stops. -/
theorem redirScan_done (canOpen : OpenMode → Token → Bool) (tokens : List Token) (j : Nat)
    (st : ChildState) (h : 2 ≤ st.pipesPresent) : redirScan canOpen tokens j st = st := by
  cases j with
  | zero => rfl
  | succ j => simp [redirScan, h]

theorem nullFrom_spec : ∀ (n : Nat) (a mid rest : List (Option Token)), mid.length = n →
    nullFrom n a.length (a ++ mid ++ rest) = a ++ List.replicate n none ++ rest := by
  intro n
  induction n with
  | zero =>
    intro a mid rest h
    have : mid = [] := List.length_eq_zero.1 h
    subst this
    simp [nullFrom]
  | succ n ih =>
    intro a mid rest h
    cases mid with
    | nil => simp at h
    | cons m mid =>
      simp only [List.length_cons, Nat.add_right_cancel_iff] at h
      have hset : (a ++ m :: mid ++ rest).set a.length none = (a ++ [none]) ++ mid ++ rest := by
        induction a with
        | nil => simp
        | cons x a iha => simp [iha]
      have key := ih (a ++ [none]) mid rest h
      simp only [List.length_append, List.length_singleton] at key
      unfold nullFrom
      rw [hset, key]
      simp [List.replicate_succ]

theorem argvOf_map_some (ts : List Token) (rest : List (Option Token)) :
    argvOf (ts.map some ++ none :: rest) = ts := by
  induction ts with
  | nil => rfl
  | cons t ts ih => simp [argvOf, ih]

/-- The argument vector is the part of the token sequence before `lindex`. -/
theorem argv_eq_take (tokens : List Token) (l : Nat) (hl : l ≤ tokens.length) :
    argvOf (nullFrom (tokens.length - l) l (tokens.map some ++ [none])) = tokens.take l := by
  have hsplit : tokens.map some ++ [none] =
      (tokens.take l).map some ++ (tokens.drop l).map some ++ [none] := by
    rw [← List.map_append, List.take_append_drop]
  have hlen : ((tokens.take l).map some).length = l := by simp [hl]
  have key := nullFrom_spec (tokens.length - l) ((tokens.take l).map some)
    ((tokens.drop l).map some) [none] (by simp)
  rw [hlen] at key
  rw [hsplit, key, List.append_assoc]
  cases h : tokens.length - l with
  | zero => simpa using argvOf_map_some (tokens.take l) []
  | succ n =>
    rw [List.replicate_succ]
    exact argvOf_map_some (tokens.take l) _

theorem resolve_lindex_bounds (canOpen : OpenMode → Token → Bool) (tokens : List Token)
    (hne : tokens ≠ []) :
    1 ≤ (resolve canOpen tokens).state.lindex ∧
      (resolve canOpen tokens).state.lindex ≤ tokens.length := by
  have hpos : 1 ≤ tokens.length := List.length_pos.2 hne
  unfold resolve
  simp only
  split
  · exact ⟨redirScan_lindex_pos _ _ _ _ hpos,
      redirScan_lindex_le _ _ tokens.length _ _ (le_refl _) (by omega)⟩
  · exact ⟨hpos, le_refl _⟩

theorem resolve_argv (canOpen : OpenMode → Token → Bool) (tokens : List Token)
    (hne : tokens ≠ []) :
    (resolve canOpen tokens).argv = tokens.take (resolve canOpen tokens).state.lindex := by
  have h := (resolve_lindex_bounds canOpen tokens hne).2
  exact argv_eq_take tokens _ h

theorem resolve_state (canOpen : OpenMode → Token → Bool) (tokens : List Token)
    (h : 2 < tokens.length) :
    (resolve canOpen tokens).state = redirScan canOpen tokens (tokens.length - 2)
      { lindex := tokens.length, pipesPresent := 0, opened := [], stdin := none,
        stdout := none } := by
  simp [resolve, h]

theorem redirScan_step_out (canOpen : OpenMode → Token → Bool) (tokens : List Token) (j : Nat)
    (st : ChildState) (path : Token) (hp : st.pipesPresent < 2)
    (h1 : tokens[j + 1]? = some ['>']) (h2 : tokens[j + 1 + 1]? = some path) :
    redirScan canOpen tokens (j + 1) st =
      redirScan canOpen tokens j (st.redirectOut canOpen (j + 1) path) := by
  rw [redirScan, if_neg (by omega)]
  simp [scanStep, h1, h2]

theorem redirScan_step_in (canOpen : OpenMode → Token → Bool) (tokens : List Token) (j : Nat)
    (st : ChildState) (path : Token) (hp : st.pipesPresent < 2)
    (h1 : tokens[j + 1]? = some ['<']) (h2 : tokens[j + 1 + 1]? = some path) :
    redirScan canOpen tokens (j + 1) st =
      redirScan canOpen tokens j (st.redirectIn canOpen (j + 1) path) := by
  rw [redirScan, if_neg (by omega)]
  simp [scanStep, h1, h2]

theorem redirScan_step_skip (canOpen : OpenMode → Token → Bool) (tokens : List Token) (j : Nat)
    (st : ChildState) (ct : Token) (h1 : tokens[j + 1]? = some ct)
    (hct : isOperator ct = false) :
    redirScan canOpen tokens (j + 1) st = redirScan canOpen tokens j st := by
  rw [redirScan]
  split
  · rename_i h
    exact (redirScan_done canOpen tokens j st h).symm
  · rw [scanStep_not_operator canOpen tokens (j + 1) st
      (fun ct1 h => by rw [h1] at h; cases h; exact hct)]

theorem getElem?_after_args (c : Token) (A S : List Token) (k : Nat) :
    (c :: (A ++ S))[A.length + 1 + k]? = S[k]? := by
  have e : A.length + 1 + k = (A.length + k) + 1 := by omega
  rw [e, List.getElem?_cons_succ, List.getElem?_append_right (by omega)]
  congr 1
  omega

theorem args_not_operator (c : Token) (A S : List Token)
    (hA : ∀ a ∈ A, isOperator a = false) (k : Nat) (ct : Token) (h1 : 1 ≤ k)
    (h2 : k ≤ A.length) (h : (c :: (A ++ S))[k]? = some ct) : isOperator ct = false := by
  obtain ⟨m, rfl⟩ : ∃ m, k = m + 1 := ⟨k - 1, by omega⟩
  rw [List.getElem?_cons_succ, List.getElem?_append_left (by omega)] at h
  exact hA ct (List.getElem?_mem h)

/-- A line of spaces only, or an empty line, makes the trimming loop leave the
buffer: `parseTokens` returns nothing for it. -/
theorem parseTokens_blank (line : List Char) (h : ∀ c ∈ line, c = ' ') :
    parseTokens (line ++ ['\n']) = .error .outOfBounds := by
  have hline : line = List.replicate line.length ' ' := List.eq_replicate_iff.2 ⟨rfl, h⟩
  generalize line.length = k at hline
  subst hline
  have hall : ∀ m, m < k →
      trimLoop (List.replicate k ' ' ++ ['\n']) m = .error .outOfBounds := by
    intro m
    induction m with
    | zero =>
      intro hm
      have hc : charAt (List.replicate k ' ' ++ ['\n']) 0 = some ' ' := by
        cases k with
        | zero => omega
        | succ k => simp [charAt, List.replicate_succ]
      simp [trimLoop, hc]
    | succ m ih =>
      intro hm
      have hc : charAt (List.replicate k ' ' ++ ['\n']) (m + 1) = some ' ' := by
        unfold charAt
        rw [if_pos (by simp; omega), List.getElem?_append_left (by simpa using hm)]
        simp [List.getElem?_replicate, hm]
      simp only [trimLoop, hc, if_true]
      exact ih (by omega)
  unfold parseTokens
  by_cases hk : (List.replicate k ' ' ++ ['\n']).length < 2
  · rw [if_pos hk]
  · rw [if_neg hk]
    have hlen : (List.replicate k ' ' ++ ['\n']).length - 2 = k - 1 := by simp
    have hk2 : 1 ≤ k := by simp at hk; omega
    rw [hlen, hall (k - 1) (by omega)]

theorem tokenize_of_parse_error (line : List Char) (e : ParseError)
    (h : parseTokens (line ++ ['\n']) = .error e) : tokenize line = .error e := by
  unfold tokenize
  rw [h]
  rfl

theorem tokenize_blank (line : List Char) (h : ∀ c ∈ line, c = ' ') :
    tokenize line = .error .outOfBounds :=
  tokenize_of_parse_error line _ (parseTokens_blank line h)

theorem tokenize_ok_nonblank (line : List Char) (r : List Token × Nat)
    (h : tokenize line = .ok r) : ∃ c ∈ line, c ≠ ' ' := by
  by_contra hno
  have hall : ∀ c ∈ line, c = ' ' := by
    intro c hc
    by_contra hne
    exact hno ⟨c, hc, hne⟩
  rw [tokenize_blank line hall] at h
  cases h

theorem resolve_of_state (canOpen : OpenMode → Token → Bool) (tokens : List Token)
    (st : ChildState) (hne : tokens ≠ []) (hst : (resolve canOpen tokens).state = st) :
    (resolve canOpen tokens).argv = tokens.take st.lindex ∧
      (resolve canOpen tokens).plan = planOf st.opened := by
  constructor
  · rw [resolve_argv canOpen tokens hne, hst]
  · unfold Resolved.plan
    rw [hst]

theorem resolve_out (canOpen : OpenMode → Token → Bool) (c : Token) (A : List Token)
    (f : Token) (hA : ∀ a ∈ A, isOperator a = false) :
    (resolve canOpen (c :: (A ++ [['>'], f]))).argv = c :: A ∧
      (resolve canOpen (c :: (A ++ [['>'], f]))).plan = { input := none, output := some f } := by
  have hlen : (c :: (A ++ [['>'], f])).length = A.length + 3 := by simp
  have h1 : (c :: (A ++ [['>'], f]))[A.length + 1]? = some ['>'] := by
    simpa using getElem?_after_args c A [['>'], f] 0
  have h2 : (c :: (A ++ [['>'], f]))[A.length + 1 + 1]? = some f := by
    simpa using getElem?_after_args c A [['>'], f] 1
  have hst := resolve_state canOpen (c :: (A ++ [['>'], f])) (by rw [hlen]; omega)
  rw [hlen, show A.length + 3 - 2 = A.length + 1 by omega,
    redirScan_step_out canOpen _ A.length _ f (by simp) h1 h2,
    redirScan_no_operator canOpen _ _ _ (args_not_operator c A _ hA)] at hst
  obtain ⟨ha, hp⟩ := resolve_of_state canOpen _ _ (by simp) hst
  exact ⟨by simpa [ChildState.redirectOut] using ha,
    by simpa [ChildState.redirectOut, planOf] using hp⟩

theorem resolve_in (canOpen : OpenMode → Token → Bool) (c : Token) (A : List Token)
    (g : Token) (hA : ∀ a ∈ A, isOperator a = false) :
    (resolve canOpen (c :: (A ++ [['<'], g]))).argv = c :: A ∧
      (resolve canOpen (c :: (A ++ [['<'], g]))).plan = { input := some g, output := none } := by
  have hlen : (c :: (A ++ [['<'], g])).length = A.length + 3 := by simp
  have h1 : (c :: (A ++ [['<'], g]))[A.length + 1]? = some ['<'] := by
    simpa using getElem?_after_args c A [['<'], g] 0
  have h2 : (c :: (A ++ [['<'], g]))[A.length + 1 + 1]? = some g := by
    simpa using getElem?_after_args c A [['<'], g] 1
  have hst := resolve_state canOpen (c :: (A ++ [['<'], g])) (by rw [hlen]; omega)
  rw [hlen, show A.length + 3 - 2 = A.length + 1 by omega,
    redirScan_step_in canOpen _ A.length _ g (by simp) h1 h2,
    redirScan_no_operator canOpen _ _ _ (args_not_operator c A _ hA)] at hst
  obtain ⟨ha, hp⟩ := resolve_of_state canOpen _ _ (by simp) hst
  exact ⟨by simpa [ChildState.redirectIn] using ha,
    by simpa [ChildState.redirectIn, planOf] using hp⟩

theorem resolve_in_out (canOpen : OpenMode → Token → Bool) (c : Token) (A : List Token)
    (f g : Token) (hA : ∀ a ∈ A, isOperator a = false) (hg : isOperator g = false) :
    (resolve canOpen (c :: (A ++ [['<'], g, ['>'], f]))).argv = c :: A ∧
      (resolve canOpen (c :: (A ++ [['<'], g, ['>'], f]))).plan =
        { input := some g, output := some f } := by
  have hlen : (c :: (A ++ [['<'], g, ['>'], f])).length = A.length + 5 := by simp
  have h1 : (c :: (A ++ [['<'], g, ['>'], f]))[A.length + 1]? = some ['<'] := by
    simpa using getElem?_after_args c A [['<'], g, ['>'], f] 0
  have h2 : (c :: (A ++ [['<'], g, ['>'], f]))[A.length + 1 + 1]? = some g := by
    simpa using getElem?_after_args c A [['<'], g, ['>'], f] 1
  have h3 : (c :: (A ++ [['<'], g, ['>'], f]))[A.length + 2 + 1]? = some ['>'] := by
    simpa using getElem?_after_args c A [['<'], g, ['>'], f] 2
  have h4 : (c :: (A ++ [['<'], g, ['>'], f]))[A.length + 2 + 1 + 1]? = some f := by
    simpa using getElem?_after_args c A [['<'], g, ['>'], f] 3
  have hst := resolve_state canOpen (c :: (A ++ [['<'], g, ['>'], f])) (by rw [hlen]; omega)
  rw [hlen, show A.length + 5 - 2 = A.length + 2 + 1 by omega,
    redirScan_step_out canOpen _ (A.length + 2) _ f (by simp) h3 h4,
    redirScan_step_skip canOpen _ (A.length + 1) _ g h2 hg,
    redirScan_step_in canOpen _ A.length _ g (by simp [ChildState.redirectOut]) h1 h2,
    redirScan_no_operator canOpen _ _ _ (args_not_operator c A _ hA)] at hst
  obtain ⟨ha, hp⟩ := resolve_of_state canOpen _ _ (by simp) hst
  exact ⟨by simpa [ChildState.redirectIn, ChildState.redirectOut] using ha,
    by simpa [ChildState.redirectIn, ChildState.redirectOut, planOf] using hp⟩

theorem resolve_out_in (canOpen : OpenMode → Token → Bool) (c : Token) (A : List Token)
    (f g : Token) (hA : ∀ a ∈ A, isOperator a = false) (hf : isOperator f = false) :
    (resolve canOpen (c :: (A ++ [['>'], f, ['<'], g]))).argv = c :: A ∧
      (resolve canOpen (c :: (A ++ [['>'], f, ['<'], g]))).plan =
        { input := some g, output := some f } := by
  have hlen : (c :: (A ++ [['>'], f, ['<'], g])).length = A.length + 5 := by simp
  have h1 : (c :: (A ++ [['>'], f, ['<'], g]))[A.length + 1]? = some ['>'] := by
    simpa using getElem?_after_args c A [['>'], f, ['<'], g] 0
  have h2 : (c :: (A ++ [['>'], f, ['<'], g]))[A.length + 1 + 1]? = some f := by
    simpa using getElem?_after_args c A [['>'], f, ['<'], g] 1
  have h3 : (c :: (A ++ [['>'], f, ['<'], g]))[A.length + 2 + 1]? = some ['<'] := by
    simpa using getElem?_after_args c A [['>'], f, ['<'], g] 2
  have h4 : (c :: (A ++ [['>'], f, ['<'], g]))[A.length + 2 + 1 + 1]? = some g := by
    simpa using getElem?_after_args c A [['>'], f, ['<'], g] 3
  have hst := resolve_state canOpen (c :: (A ++ [['>'], f, ['<'], g])) (by rw [hlen]; omega)
  rw [hlen, show A.length + 5 - 2 = A.length + 2 + 1 by omega,
    redirScan_step_in canOpen _ (A.length + 2) _ g (by simp) h3 h4,
    redirScan_step_skip canOpen _ (A.length + 1) _ f h2 hf,
    redirScan_step_out canOpen _ A.length _ f (by simp [ChildState.redirectIn]) h1 h2,
    redirScan_no_operator canOpen _ _ _ (args_not_operator c A _ hA)] at hst
  obtain ⟨ha, hp⟩ := resolve_of_state canOpen _ _ (by simp) hst
  exact ⟨by simpa [ChildState.redirectIn, ChildState.redirectOut] using ha,
    by simpa [ChildState.redirectIn, ChildState.redirectOut, planOf] using hp⟩

/-! ### Lines made of words separated by single spaces -/

theorem lexL_plain_run : ∀ (r : List Char) (sp : Bool) (pend tail : List Char),
    ' ' ∉ r → '"' ∉ r →
    lexL sp pend none (r ++ tail) = lexL (if r = [] then sp else false) (pend ++ r) none tail := by
  intro r
  induction r with
  | nil => intro sp pend tail _ _; simp
  | cons c cs ih =>
    intro sp pend tail hs hq
    have hc1 : c ≠ ' ' := fun h => hs (by simp [h])
    have hc2 : c ≠ '"' := fun h => hq (by simp [h])
    have hs1 : ' ' ∉ cs := fun h => hs (by simp [h])
    have hq1 : '"' ∉ cs := fun h => hq (by simp [h])
    rw [List.cons_append]
    simp only [lexL, hc1, hc2, if_false]
    rw [ih false (pend ++ [c]) tail hs1 hq1]
    simp

/-- The list-level scan of one word that is followed by `tail`. -/
theorem lexL_word (w : Word) (hw : w.wellFormed) (sp : Bool) (tail : List Char) :
    ∃ pend, pend ≠ [] ∧
      lexL sp [] none (w.render ++ tail) =
        Except.map (fun ts => w.scanned.dropLast ++ ts) (lexL false pend none tail) ∧
      w.scanned.getLast? = some pend := by
  cases w with
  | plain r =>
    obtain ⟨h1, h2, h3⟩ := hw
    refine ⟨r, h1, ?_, rfl⟩
    simp only [Word.render, Word.scanned]
    rw [lexL_plain_run r sp [] tail h2 h3]
    simp only [h1, if_false, List.nil_append, List.dropLast_single]
    cases lexL false r none tail <;> rfl
  | quoted q =>
    refine ⟨'"' :: (q ++ ['"']), by simp, ?_, rfl⟩
    simp only [Word.render, Word.scanned]
    rw [List.cons_append]
    simp only [lexL, if_true]
    have hq : '"' ∉ q := hw
    rw [List.append_assoc, List.singleton_append, lexL_quote_found q _ _ _ _ hq]
    simp [List.append_assoc]

/-- The list-level scan of words separated by single spaces. -/
theorem lexL_words : ∀ (ws : List Word), ws ≠ [] → (∀ w ∈ ws, w.wellFormed) → ∀ (sp : Bool),
    lexL sp [] none (joinWithSpaces (ws.map Word.render)) =
      .ok (ws.flatMap Word.scanned) := by
  intro ws
  induction ws with
  | nil => intro h; exact absurd rfl h
  | cons w ws ih =>
    intro _ hwf sp
    have hw := hwf w (by simp)
    have hlast : ∀ pend : List Char, w.scanned.getLast? = some pend →
        w.scanned.dropLast ++ [pend] = w.scanned := by
      intro pend h
      cases w with
      | plain r => simp [Word.scanned] at h ⊢; exact h.symm
      | quoted q => simp [Word.scanned] at h ⊢; exact h.symm
    cases ws with
    | nil =>
      obtain ⟨pend, _, hscan, hl⟩ := lexL_word w hw sp []
      simp only [List.append_nil] at hscan
      simp only [joinWithSpaces, List.map_cons, List.map_nil, List.intercalate,
        List.intersperse_single, List.flatten_cons, List.flatten_nil, List.append_nil]
      rw [hscan]
      simp [lexL, Except.map, hlast pend hl]
    | cons v vs =>
      obtain ⟨pend, _, hscan, hl⟩ := lexL_word w hw sp
        (' ' :: joinWithSpaces ((v :: vs).map Word.render))
      have hrest := ih (by simp) (fun x hx => hwf x (List.mem_cons_of_mem _ hx)) true
      have hj : joinWithSpaces ((w :: v :: vs).map Word.render) =
          w.render ++ ' ' :: joinWithSpaces ((v :: vs).map Word.render) := by
        simp [joinWithSpaces, intercalate_cons_cons]
      have hsp : (' ' : Char) ≠ '"' := by decide
      rw [hj, hscan]
      simp only [lexL, hsp, if_false, if_true, Bool.false_eq_true, hrest]
      simp only [Except.map, List.flatMap_cons]
      rw [← hlast pend hl]
      simp

/-- On a line made of well-formed words separated by single spaces, `tokenize` returns
the tokens of the words in order, and after each quoted word one more token: that
word with its quotes. -/
theorem tokenize_words (ws : List Word) (hne : ws ≠ []) (hwf : ∀ w ∈ ws, w.wellFormed) :
    tokenize (joinWithSpaces (ws.map Word.render)) =
      .ok (ws.flatMap Word.scanned, (ws.flatMap Word.scanned).length) := by
  have hns : ∃ c ∈ joinWithSpaces (ws.map Word.render), c ≠ ' ' := by
    cases ws with
    | nil => exact absurd rfl hne
    | cons w ws =>
      have hw := hwf w (by simp)
      have hmem : w.render ∈ (w :: ws).map Word.render := by simp
      cases w with
      | plain r =>
        obtain ⟨h1, h2, _⟩ := hw
        cases r with
        | nil => exact absurd rfl h1
        | cons x xs =>
          exact ⟨x, mem_intercalate_of_mem _ _ _ x hmem (by simp [Word.render]),
            fun h => h2 (by simp [h])⟩
      | quoted q =>
        exact ⟨'"', mem_intercalate_of_mem _ _ _ '"' hmem (by simp [Word.render]), by decide⟩
  rw [tokenize_eq_lexL _ hns, lexL_words ws hne hwf false]
  rfl

/-- The number of tokens returned for such a line is the number of words plus the
number of quoted words. -/
theorem tokenize_words_count (ws : List Word) (hne : ws ≠ []) (hwf : ∀ w ∈ ws, w.wellFormed) :
    ∃ ts, tokenize (joinWithSpaces (ws.map Word.render)) =
      .ok (ts, ws.length + ws.countP Word.isQuoted) := by
  have hlen : ∀ l : List Word,
      (l.flatMap Word.scanned).length = l.length + l.countP Word.isQuoted := by
    intro l
    induction l with
    | nil => rfl
    | cons w l ih =>
      cases w with
      | plain r => simp [Word.scanned, Word.isQuoted, ih]; omega
      | quoted q => simp [Word.scanned, Word.isQuoted, ih]; omega
  exact ⟨_, by rw [tokenize_words ws hne hwf, hlen]⟩

/-! ## Properties of the tokenizer -/

/-- C1, the run of the code on the line `  a   b  `: the line has no double quote and
has non-space characters, its maximal runs of non-space characters are `a` and `b`,
yet `tokenize` returns the three tokens `""`, `a`, `b`: the space at index 0 passes the
test of line 89 and yields an empty first token. -/
theorem tokenize_leading_space_counterexample :
    '"' ∉ "  a   b  ".toList ∧ (∃ c ∈ "  a   b  ".toList, c ≠ ' ') ∧
      nonSpaceRuns "  a   b  ".toList = ["a".toList, "b".toList] ∧
      tokenize "  a   b  ".toList = .ok (["".toList, "a".toList, "b".toList], 3) ∧
      ¬ ∃ n, tokenize "  a   b  ".toList = .ok (nonSpaceRuns "  a   b  ".toList, n) := by
  refine ⟨by decide, ⟨'a', by decide, by decide⟩, by rfl, by rfl, ?_⟩
  rintro ⟨n, hn⟩
  have h : tokenize "  a   b  ".toList = .ok (["".toList, "a".toList, "b".toList], 3) := by rfl
  rw [h] at hn
  have h2 : nonSpaceRuns "  a   b  ".toList = ["a".toList, "b".toList] := by rfl
  rw [h2] at hn
  simp at hn

/-- What the code returns on a line without a double quote and with at least one
non-space character: the maximal runs of non-space characters in left-to-right order,
and before them the empty token of a space at index 0 when the line starts with a
space. -/
theorem tokenize_unquoted (line : List Char) (hq : '"' ∉ line) (h : ∃ c ∈ line, c ≠ ' ') :
    tokenize line =
        .ok ((if line.head? = some ' ' then [[]] else []) ++ nonSpaceRuns line,
          ((if line.head? = some ' ' then [[]] else []) ++ nonSpaceRuns line).length) ∧
      ∀ w ∈ nonSpaceRuns line, w ≠ [] ∧ ' ' ∉ w := by
  constructor
  · rw [tokenize_eq_lexL line h, lexL_line_unquoted line hq h]
    by_cases hs : line.head? = some ' ' <;> simp [hs, Except.map]
  · intro w hw
    exact ⟨(mem_nonSpaceRuns line w hw).1, (mem_nonSpaceRuns line w hw).2.1⟩

/-- C2, the run of the code on the line `echo "hello world" end`: three words, the
second one quoted, and `tokenize` returns four tokens, the quoted word once without
and once more with its quotes. -/
theorem tokenize_quoted_word_twice :
    tokenize "echo \"hello world\" end".toList =
      .ok (["echo".toList, "hello world".toList, "\"hello world\"".toList, "end".toList], 4) := by
  rfl

/-- C3: for every line with at least one non-space character, `tokenize` takes the
unterminated-quote exit exactly when the number of double quotes of the line is odd,
and with an even number (zero included) it returns a token sequence. -/
theorem tokenize_fails_iff_odd_quotes (line : List Char) (h : ∃ c ∈ line, c ≠ ' ') :
    (tokenize line = .error .unterminatedQuote ↔ Odd (line.count '"')) ∧
      (Even (line.count '"') → ∃ ts, tokenize line = .ok (ts, ts.length)) := by
  rw [tokenize_eq_lexL line h]
  have hok := (lexL_ok_iff line).1 false []
  constructor
  · constructor
    · intro herr
      rw [← Nat.not_even_iff_odd, ← hok]
      rintro ⟨ts, hts⟩
      rw [hts] at herr
      simp [Except.map] at herr
    · intro hodd
      cases hL : lexL false [] none line with
      | error e =>
        have := lexL_error line _ _ _ e hL
        subst this
        rfl
      | ok ts =>
        exact absurd (hok.1 ⟨ts, hL⟩) (Nat.not_even_iff_odd.2 hodd)
  · intro heven
    obtain ⟨ts, hts⟩ := hok.2 heven
    exact ⟨ts, by rw [hts]; rfl⟩

/-- C3 on a line with one quote and on a line with two. -/
theorem tokenize_fails_iff_odd_quotes_witness :
    tokenize "a \"unterminated".toList = .error .unterminatedQuote ∧
      ∃ ts, tokenize "a \"b c\" d".toList = .ok (ts, ts.length) :=
  ⟨(tokenize_fails_iff_odd_quotes "a \"unterminated".toList
      ⟨'a', by decide, by decide⟩).1.2 (by decide),
    (tokenize_fails_iff_odd_quotes "a \"b c\" d".toList
      ⟨'a', by decide, by decide⟩).2 (by decide)⟩

/-- C6: for every line without a double quote and with at least one non-space
character, `tokenize` returns a token sequence `T`, and tokenizing the tokens of `T`
joined with single spaces returns `T` again. -/
theorem tokenize_join_roundtrip (line : List Char) (hq : '"' ∉ line)
    (h : ∃ c ∈ line, c ≠ ' ') :
    ∃ T n, tokenize line = .ok (T, n) ∧ tokenize (joinWithSpaces T) = .ok (T, n) := by
  have hruns : ∀ w ∈ nonSpaceRuns line, w ≠ [] ∧ ' ' ∉ w ∧ '"' ∉ w := by
    intro w hw
    obtain ⟨h1, h2, h3⟩ := mem_nonSpaceRuns line w hw
    exact ⟨h1, h2, fun hm => hq (h3 _ hm)⟩
  have hjoin := tokenize_join_runs (decide (line.head? = some ' ')) (nonSpaceRuns line)
    (nonSpaceRuns_ne_nil line h) hruns
  refine ⟨_, _, ?_, hjoin⟩
  rw [tokenize_eq_lexL line h, lexL_line_unquoted line hq h]
  by_cases hs : line.head? = some ' ' <;> simp [hs, Except.map]

/-- C6 on the line `ls   -l  /tmp `. -/
theorem tokenize_join_roundtrip_witness :
    ∃ T n, tokenize "ls   -l  /tmp ".toList = .ok (T, n) ∧
      tokenize (joinWithSpaces T) = .ok (T, n) :=
  tokenize_join_roundtrip "ls   -l  /tmp ".toList (by decide) ⟨'l', by decide, by decide⟩

/-- C7: for every line without a double quote whose first character is not a space,
`tokenize` returns exactly the maximal runs of non-space characters in order; each of
them is non-empty and holds no space, so runs of spaces between words and trailing
spaces produce no token. -/
theorem tokenize_no_leading_space (c : Char) (cs : List Char) (hc : c ≠ ' ')
    (hq : '"' ∉ c :: cs) :
    tokenize (c :: cs) = .ok (nonSpaceRuns (c :: cs), (nonSpaceRuns (c :: cs)).length) ∧
      ∀ w ∈ nonSpaceRuns (c :: cs), w ≠ [] ∧ ' ' ∉ w := by
  have h : ∃ x ∈ c :: cs, x ≠ ' ' := ⟨c, by simp, hc⟩
  constructor
  · rw [tokenize_eq_lexL _ h, lexL_line_unquoted _ hq h]
    simp [hc, Except.map]
  · intro w hw
    exact ⟨(mem_nonSpaceRuns _ w hw).1, (mem_nonSpaceRuns _ w hw).2.1⟩

/-- C7 on the line `a   b  `. -/
theorem tokenize_no_leading_space_witness :
    tokenize "a   b  ".toList = .ok (["a".toList, "b".toList], 2) :=
  (tokenize_no_leading_space 'a' "   b  ".toList (by decide) (by decide)).1

/-- The characters copied for the quoted spans: on every line on which `tokenize`
succeeds, the texts strictly between the 1st and 2nd, the 3rd and 4th, ... double quote
are among the character sequences copied into the tokens, in the order of their quote
pairs. (The buffers of these tokens get no NUL.) -/
theorem tokenize_quoted_spans (line : List Char) (ts : List Token) (n : Nat)
    (hok : tokenize line = .ok (ts, n)) : (quotedSpans line).Sublist ts := by
  have h := tokenize_ok_nonblank line _ hok
  rw [tokenize_eq_lexL line h] at hok
  obtain ⟨a, ha, hpair⟩ := Except.map_eq_ok _ _ _ hok
  simp only [Prod.mk.injEq] at hpair
  obtain ⟨rfl, _⟩ := hpair
  obtain ⟨w0, ws, hW⟩ := splitOn_quote_ne_nil line
  have := (lexL_quoted_sublist line w0 ws hW).1 false [] a ha
  unfold quotedSpans
  rw [hW]
  exact this

/-- C8, the run of the code on the line `cp "a  b" "" x`: the texts between the quote
pairs are `a  b` and the empty text; the entries that receive them (1 and 3) are the
ones whose buffers get no NUL, so that with the bytes `UU` behind such a buffer the
tokens read there are `a  bUU` and `UU`, and neither quoted text is a token of the
result. -/
theorem quoted_tokens_unterminated :
    quotedSpans "cp \"a  b\" \"\" x".toList = ["a  b".toList, "".toList] ∧
      Except.map (fun p => (p.arr, p.terminated))
          (parseTokens "cp \"a  b\" \"\" x\n".toList) =
        .ok (["cp".toList, "a  b".toList, "\"a  b\"".toList, "".toList, "\"\"".toList,
            "x".toList], [true, false, true, false, true, true]) ∧
      Except.map (Parsed.cStrings (fun _ => "UU".toList))
          (parseTokens "cp \"a  b\" \"\" x\n".toList) =
        .ok ["cp".toList, "a  bUU".toList, "\"a  b\"".toList, "UU".toList, "\"\"".toList,
          "x".toList] ∧
      "a  b".toList ∉ ["cp".toList, "a  bUU".toList, "\"a  b\"".toList, "UU".toList,
        "\"\"".toList, "x".toList] ∧
      "".toList ∉ ["cp".toList, "a  bUU".toList, "\"a  b\"".toList, "UU".toList,
        "\"\"".toList, "x".toList] := by
  refine ⟨by rfl, by rfl, by rfl, by decide, by decide⟩

/-- C9: for every line with at least one non-space character on which `tokenize`
succeeds, `token_count` is at least 1 and equals the length of the returned sequence,
so that the entry `tokens[0]` read by the dispatcher exists. -/
theorem tokenize_count (line : List Char) (ts : List Token) (n : Nat)
    (h : ∃ c ∈ line, c ≠ ' ') (hok : tokenize line = .ok (ts, n)) :
    1 ≤ n ∧ n = ts.length ∧ ∃ t, ts[0]? = some t := by
  rw [tokenize_eq_lexL line h] at hok
  obtain ⟨a, ha, hpair⟩ := Except.map_eq_ok _ _ _ hok
  simp only [Prod.mk.injEq] at hpair
  obtain ⟨rfl, rfl⟩ := hpair
  have hne := (lexL_ne_nil line).1 false [] a ha (Or.inl rfl)
  cases a with
  | nil => exact absurd rfl hne
  | cons t ts => exact ⟨by simp, rfl, t, by simp⟩

/-- C9 on the line `echo "hello world" end`. -/
theorem tokenize_count_witness :
    1 ≤ 4 ∧ 4 = ["echo".toList, "hello world".toList, "\"hello world\"".toList,
      "end".toList].length ∧
      ∃ t, ["echo".toList, "hello world".toList, "\"hello world\"".toList,
        "end".toList][0]? = some t :=
  tokenize_count "echo \"hello world\" end".toList _ 4 ⟨'e', by decide, by decide⟩ (by rfl)

/-! ## Properties of the redirection scan -/

/-- C4: for a command name `c`, arguments `A` none of which is `<` or `>`, and file
names `f`, `g` that are not `<` or `>`, the tokens `c A > f` resolve to the vector
`c A` with output `f`, `c A < g` to `c A` with input `g`, and both `c A < g > f` and
`c A > f < g` to `c A` with input `g` and output `f`. -/
theorem resolve_redirections (canOpen : OpenMode → Token → Bool) (c : Token)
    (A : List Token) (f g : Token) (hA : ∀ a ∈ A, isOperator a = false)
    (hf : isOperator f = false) (hg : isOperator g = false) :
    ((resolve canOpen (c :: (A ++ [['>'], f]))).argv = c :: A ∧
        (resolve canOpen (c :: (A ++ [['>'], f]))).plan =
          { input := none, output := some f }) ∧
      ((resolve canOpen (c :: (A ++ [['<'], g]))).argv = c :: A ∧
        (resolve canOpen (c :: (A ++ [['<'], g]))).plan =
          { input := some g, output := none }) ∧
      ((resolve canOpen (c :: (A ++ [['<'], g, ['>'], f]))).argv = c :: A ∧
        (resolve canOpen (c :: (A ++ [['<'], g, ['>'], f]))).plan =
          { input := some g, output := some f }) ∧
      ((resolve canOpen (c :: (A ++ [['>'], f, ['<'], g]))).argv = c :: A ∧
        (resolve canOpen (c :: (A ++ [['>'], f, ['<'], g]))).plan =
          { input := some g, output := some f }) :=
  ⟨resolve_out canOpen c A f hA, resolve_in canOpen c A g hA,
    resolve_in_out canOpen c A f g hA hg, resolve_out_in canOpen c A f g hA hf⟩

/-- C4 on `cat f > out.txt` and on `grep x < in.txt > out.txt`. -/
theorem resolve_redirections_witness :
    ((resolve (fun _ _ => true) ["cat".toList, "f".toList, ">".toList, "out.txt".toList]).argv =
        ["cat".toList, "f".toList] ∧
      (resolve (fun _ _ => true) ["cat".toList, "f".toList, ">".toList, "out.txt".toList]).plan =
        { input := none, output := some "out.txt".toList }) ∧
    ((resolve (fun _ _ => true)
        ["grep".toList, "x".toList, "<".toList, "in.txt".toList, ">".toList,
          "out.txt".toList]).argv = ["grep".toList, "x".toList] ∧
      (resolve (fun _ _ => true)
        ["grep".toList, "x".toList, "<".toList, "in.txt".toList, ">".toList,
          "out.txt".toList]).plan =
        { input := some "in.txt".toList, output := some "out.txt".toList }) :=
  ⟨(resolve_redirections (fun _ _ => true) "cat".toList ["f".toList] "out.txt".toList
      "in.txt".toList (by decide) (by decide) (by decide)).1,
    (resolve_redirections (fun _ _ => true) "grep".toList ["x".toList] "out.txt".toList
      "in.txt".toList (by decide) (by decide) (by decide)).2.2.1⟩

/-- C10: for every non-empty token sequence the vector handed to `execvp` is a
non-empty initial part of the token sequence: its first element is `tokens[0]`, and every
element it keeps sits at its original index with its original value. -/
theorem resolve_argv_initial (canOpen : OpenMode → Token → Bool) (tokens : List Token)
    (hne : tokens ≠ []) :
    (resolve canOpen tokens).argv <+: tokens ∧ (resolve canOpen tokens).argv ≠ [] ∧
      (resolve canOpen tokens).argv[0]? = tokens[0]? ∧
      ∀ k, k < (resolve canOpen tokens).argv.length →
        (resolve canOpen tokens).argv[k]? = tokens[k]? := by
  obtain ⟨hpos, hle⟩ := resolve_lindex_bounds canOpen tokens hne
  have hargv := resolve_argv canOpen tokens hne
  have hlen : (resolve canOpen tokens).argv.length = (resolve canOpen tokens).state.lindex := by
    rw [hargv, List.length_take]
    omega
  have hget : ∀ k, k < (resolve canOpen tokens).argv.length →
      (resolve canOpen tokens).argv[k]? = tokens[k]? := by
    intro k hk
    rw [hlen] at hk
    rw [hargv, List.getElem?_take_of_lt hk]
  refine ⟨?_, ?_, hget 0 (by omega), hget⟩
  · rw [hargv]; exact List.take_prefix _ _
  · intro h
    rw [h] at hlen
    simp at hlen
    omega

/-- C10 on `cat < in`. -/
theorem resolve_argv_initial_witness :
    (resolve (fun _ _ => true) ["cat".toList, "<".toList, "in".toList]).argv = ["cat".toList] ∧
      (resolve (fun _ _ => true) ["cat".toList, "<".toList, "in".toList]).argv[0]? =
        ["cat".toList, "<".toList, "in".toList][0]? :=
  ⟨by rfl, (resolve_argv_initial (fun _ _ => true) ["cat".toList, "<".toList, "in".toList]
    (by decide)).2.2.1⟩

/-! ### The scan with two operators in its range -/

theorem scanStep_cases (canOpen : OpenMode → Token → Bool) (tokens : List Token) (j : Nat)
    (st : ChildState) :
    scanStep canOpen tokens j st = st ∨
      ∃ path, scanStep canOpen tokens j st = st.redirectOut canOpen j path ∨
        scanStep canOpen tokens j st = st.redirectIn canOpen j path := by
  unfold scanStep
  split
  · rename_i ct path _ _
    split
    · split
      · exact Or.inr ⟨path, Or.inl rfl⟩
      · split
        · exact Or.inr ⟨path, Or.inr rfl⟩
        · exact Or.inl rfl
    · exact Or.inl rfl
  · exact Or.inl rfl

theorem scanStep_applyOp (canOpen : OpenMode → Token → Bool) (tokens : List Token) (j : Nat)
    (st : ChildState) (op path : Token) (h1 : tokens[j]? = some op)
    (h2 : tokens[j + 1]? = some path) (hop : isOperator op = true) :
    scanStep canOpen tokens j st = st.applyOp canOpen op j path := by
  rcases (isOperator_iff op).1 hop with rfl | rfl
  · simp [scanStep, h1, h2, ChildState.applyOp]
  · simp [scanStep, h1, h2, ChildState.applyOp]

/-- The scan keeps `pipesPresent` at most 2 and makes one call of `open` for each
operator it counts. -/
theorem redirScan_counts (canOpen : OpenMode → Token → Bool) (tokens : List Token) :
    ∀ (j : Nat) (st : ChildState), st.pipesPresent ≤ 2 →
      st.opened.length = st.pipesPresent →
      (redirScan canOpen tokens j st).pipesPresent ≤ 2 ∧
        (redirScan canOpen tokens j st).opened.length =
          (redirScan canOpen tokens j st).pipesPresent := by
  intro j
  induction j with
  | zero => intro st h1 h2; exact ⟨h1, h2⟩
  | succ j ih =>
    intro st h1 h2
    unfold redirScan
    split
    · exact ⟨h1, h2⟩
    · rename_i hlt
      rcases scanStep_cases canOpen tokens (j + 1) st with e | ⟨path, e | e⟩
      · rw [e]; exact ih st h1 h2
      · rw [e]
        exact ih _ (by simp [ChildState.redirectOut]; omega)
          (by simp [ChildState.redirectOut, h2])
      · rw [e]
        exact ih _ (by simp [ChildState.redirectIn]; omega)
          (by simp [ChildState.redirectIn, h2])

/-- A stretch of non-operators above index `lo` is passed without effect. -/
theorem redirScan_skip_range (canOpen : OpenMode → Token → Bool) (tokens : List Token)
    (lo : Nat) (st : ChildState) :
    ∀ (d : Nat), lo + d + 1 < tokens.length →
      (∀ j ct, lo < j → j ≤ lo + d → tokens[j]? = some ct → isOperator ct = false) →
      redirScan canOpen tokens (lo + d) st = redirScan canOpen tokens lo st := by
  intro d
  induction d with
  | zero => intro _ _; rfl
  | succ d ih =>
    intro hlen h
    have hget : tokens[lo + d + 1]? = some tokens[lo + d + 1] :=
      List.getElem?_eq_getElem (by omega)
    rw [show lo + (d + 1) = lo + d + 1 by omega,
      redirScan_step_skip canOpen tokens (lo + d) st _ hget
        (h (lo + d + 1) _ (by omega) (by omega) hget)]
    exact ih (by omega) (fun j ct h1 h2 => h j ct h1 (by omega))

/-- The state of the child when the two rightmost operators of the scanned range sit
at the indices `k2 < k1`. -/
theorem resolve_state_two_ops (canOpen : OpenMode → Token → Bool) (tokens : List Token)
    (k1 k2 : Nat) (op1 op2 f1 f2 : Token) (hk2 : 1 ≤ k2) (hk : k2 < k1)
    (hk1 : k1 + 1 < tokens.length) (h1 : tokens[k1]? = some op1)
    (hop1 : isOperator op1 = true) (hf1 : tokens[k1 + 1]? = some f1)
    (h2 : tokens[k2]? = some op2) (hop2 : isOperator op2 = true)
    (hf2 : tokens[k2 + 1]? = some f2)
    (hrest : ∀ j ct, k2 < j → j ≠ k1 → j + 1 < tokens.length → tokens[j]? = some ct →
      isOperator ct = false) :
    (resolve canOpen tokens).state =
      (({ lindex := tokens.length, pipesPresent := 0, opened := [], stdin := none,
          stdout := none } : ChildState).applyOp canOpen op1 k1 f1).applyOp canOpen op2 k2 f2 := by
  rw [resolve_state canOpen tokens (by omega)]
  obtain ⟨d1, hd1⟩ : ∃ d1, tokens.length - 2 = k1 + d1 := ⟨tokens.length - 2 - k1, by omega⟩
  obtain ⟨m1, hm1⟩ : ∃ m1, k1 = m1 + 1 := ⟨k1 - 1, by omega⟩
  obtain ⟨d2, hd2⟩ : ∃ d2, m1 = k2 + d2 := ⟨m1 - k2, by omega⟩
  obtain ⟨m2, hm2⟩ : ∃ m2, k2 = m2 + 1 := ⟨k2 - 1, by omega⟩
  rw [hd1, redirScan_skip_range canOpen tokens k1 _ d1 (by omega)
    (fun j ct ha hb hc => hrest j ct (by omega) (by omega) (by omega) hc)]
  have hstep1 : ∀ st : ChildState, st.pipesPresent < 2 →
      redirScan canOpen tokens k1 st =
        redirScan canOpen tokens m1 (st.applyOp canOpen op1 k1 f1) := by
    intro st hp
    subst hm1
    rw [redirScan, if_neg (by omega), scanStep_applyOp canOpen tokens _ st op1 f1 h1 hf1 hop1]
  have hstep2 : ∀ st : ChildState, st.pipesPresent < 2 →
      redirScan canOpen tokens k2 st =
        redirScan canOpen tokens m2 (st.applyOp canOpen op2 k2 f2) := by
    intro st hp
    subst hm2
    rw [redirScan, if_neg (by omega), scanStep_applyOp canOpen tokens _ st op2 f2 h2 hf2 hop2]
  have hp1 : ∀ (st : ChildState) (op : Token) (j : Nat) (path : Token),
      (st.applyOp canOpen op j path).pipesPresent = st.pipesPresent + 1 := by
    intro st op j path
    unfold ChildState.applyOp
    split <;> rfl
  rw [hstep1 _ (by simp), hd2, redirScan_skip_range canOpen tokens k2 _ d2 (by omega)
    (fun j ct ha hb hc => hrest j ct ha (by omega) (by omega) hc),
    hstep2 _ (by rw [hp1]; simp), redirScan_done]
  rw [hp1, hp1]

/-! ### The indices read by the scan -/

theorem charAt_isSome (str : List Char) (idx : Nat) (h : idx ≤ str.length) :
    ∃ c, charAt str idx = some c := by
  unfold charAt
  by_cases h1 : idx < str.length
  · rw [if_pos h1, List.getElem?_eq_getElem h1]
    exact ⟨_, rfl⟩
  · rw [if_neg h1, if_pos (by omega)]
    exact ⟨_, rfl⟩

/-- The inner loop reads `str` at the listed indices only: when these lie in the
string, it does not leave it. -/
theorem closeQuote_reads_cover (str : List Char) (len : Nat) :
    ∀ (fuel i : Nat), (∀ idx ∈ closeQuoteReads str len fuel i, idx ≤ str.length) →
      closeQuote str len fuel i ≠ .error .outOfBounds := by
  intro fuel
  induction fuel with
  | zero => intro i _ h; simp [closeQuote] at h
  | succ fuel ih =>
    intro i hreads
    unfold closeQuote
    unfold closeQuoteReads at hreads
    by_cases hlt : i + 1 < len
    · rw [if_pos hlt] at hreads ⊢
      obtain ⟨c, hc⟩ := charAt_isSome str (i + 1) (hreads _ (List.mem_cons_self _ _))
      rw [hc] at hreads ⊢
      by_cases hq : c = '"'
      · simp [hq]
      · simp only [ne_eq, hq, not_false_eq_true, if_true] at hreads ⊢
        exact ih _ (fun idx h => hreads idx (List.mem_cons_of_mem _ h))
    · rw [if_neg hlt]
      intro h
      cases h

/-- The scan reads `str` at the listed indices only: when these lie in the string, it
does not leave it. -/
theorem scanLoop_reads_cover (str : List Char) (len : Nat) :
    ∀ (fuel i : Nat) (st : ParseState),
      (∀ idx ∈ scanReads str len fuel i st.lastIndex, idx ≤ str.length) →
      scanLoop str len fuel i st ≠ .error .outOfBounds := by
  intro fuel
  induction fuel with
  | zero => intro i st _ h; simp [scanLoop] at h
  | succ fuel ih =>
    intro i st hreads
    unfold scanLoop
    unfold scanReads at hreads
    by_cases hile : i ≤ len
    · rw [if_pos hile] at hreads ⊢
      obtain ⟨c, hc⟩ := charAt_isSome str i (hreads _ (List.mem_cons_self _ _))
      rw [hc] at hreads ⊢
      have hreads1 := fun idx h => hreads idx (List.mem_cons_of_mem _ h)
      by_cases hq : c = '"'
      · simp only [hq, if_true] at hreads1 ⊢
        have hcq := closeQuote_reads_cover str len (len + 1) i
          (fun idx h => hreads1 idx (List.mem_append_left _ h))
        cases hres : closeQuote str len (len + 1) i with
        | error e =>
          simp only
          intro h
          cases h
          exact hcq hres
        | ok i1 =>
          simp only [hres] at hreads1 ⊢
          by_cases h1 : i1 = len
          · rw [if_pos h1]
            intro h
            cases h
          · rw [if_neg h1] at hreads1 ⊢
            exact ih _ _ (fun idx h =>
              hreads1 idx (List.mem_append_right _ (List.mem_append_right _ h)))
      · simp only [hq, if_false] at hreads1 ⊢
        by_cases hs : c = ' '
        · simp only [hs, if_true] at hreads1 ⊢
          have hafter : ∃ b, afterSpace str i = .ok b := by
            unfold afterSpace
            by_cases hpos : 0 < i
            · rw [if_pos hpos]
              obtain ⟨p, hp⟩ := charAt_isSome str (i - 1)
                (hreads1 _ (List.mem_append_left _ (by simp [hpos])))
              rw [hp]
              exact ⟨_, rfl⟩
            · rw [if_neg hpos]
              exact ⟨_, rfl⟩
          obtain ⟨b, hb⟩ := hafter
          rw [hb] at hreads1 ⊢
          cases b
          · exact ih _ _ (fun idx h =>
              hreads1 idx (List.mem_append_right _ (List.mem_append_right _ h)))
          · exact ih _ _ (fun idx h => hreads1 idx (List.mem_append_right _ h))
        · simp only [hs, if_false] at hreads1 ⊢
          exact ih _ _ hreads1
    · rw [if_neg hile]
      intro h
      cases h

theorem loopBody_newline (env : Env) :
    loopBody env ['\n'] =
      { parsed := false, chdir := none, forkCalled := false, resolved := none,
        next := .prompt } := by
  rfl

/-- A line of one or more spaces is handed to `parseTokens`, whose trimming loop then
leaves the buffer. -/
theorem loopBody_spaces (env : Env) (k : Nat) (hk : 1 ≤ k) :
    loopBody env (List.replicate k ' ' ++ ['\n']) =
      { parsed := true, chdir := none, forkCalled := false, resolved := none,
        next := .undefined .outOfBounds } := by
  have hparse : parseTokens (List.replicate k ' ' ++ ['\n']) = .error .outOfBounds :=
    parseTokens_blank (List.replicate k ' ') (fun c hc => (List.mem_replicate.1 hc).2)
  have hread : readline (List.replicate k ' ' ++ ['\n']) =
      some (List.replicate k ' ' ++ ['\n']) := by
    unfold readline
    rw [if_neg (by simp; omega)]
  unfold loopBody
  rw [hread]
  simp only [hparse]

/-- After a failed `execvp` the child is at the top of the loop again. -/
theorem dispatch_child_execvp_failed (env : Env) (tokens : List Token) (n : Nat)
    (file : Token) (hroute : route tokens n = some (.external file))
    (hchild : env.forkReturn = .child)
    (hfail : env.execvpOk file (resolve env.canOpen tokens).argv = false) :
    (dispatch env tokens n).next = .prompt := by
  unfold dispatch
  rw [hroute]
  simp only [hchild, hfail]
  rfl

theorem route_first (tokens : List Token) (t0 : Token) (h0 : tokens[0]? = some t0) :
    route tokens tokens.length =
      if t0 = "cd".toList then
        (if tokens.length = 1 then some (.cd homeDir) else (tokens[1]?).map Route.cd)
      else if t0 = "exit".toList then some .exitShell
      else some (.external t0) := by
  unfold route
  rw [h0]

theorem route_cd (tokens : List Token) (h0 : tokens[0]? = some "cd".toList) :
    ∃ d, route tokens tokens.length = some (.cd d) ∧
      (tokens.length = 1 → d = homeDir) ∧ (1 < tokens.length → tokens[1]? = some d) := by
  rw [route_first tokens _ h0, if_pos rfl]
  by_cases h1 : tokens.length = 1
  · exact ⟨homeDir, by rw [if_pos h1], fun _ => rfl, fun h => by omega⟩
  · have hlen : 1 < tokens.length := by
      have : tokens ≠ [] := by
        intro e
        rw [e] at h0
        simp at h0
      have := List.length_pos.2 this
      omega
    refine ⟨tokens[1], ?_, fun h => absurd h h1, fun _ => List.getElem?_eq_getElem hlen⟩
    rw [if_neg h1, List.getElem?_eq_getElem hlen]
    rfl

/-! ## Further properties of the redirection scan -/

/-- C11: for every token sequence of 1 or 2 tokens the child runs no redirection scan:
the vector handed to `execvp` is the whole token sequence, no file is opened, the plan
is empty and both streams stay as inherited, whatever the second token is. -/
theorem resolve_short (canOpen : OpenMode → Token → Bool) (tokens : List Token)
    (h : tokens.length = 1 ∨ tokens.length = 2) :
    (resolve canOpen tokens).argv = tokens ∧ (resolve canOpen tokens).state.opened = [] ∧
      (resolve canOpen tokens).plan = { input := none, output := none } ∧
      (resolve canOpen tokens).state.stdin = none ∧
      (resolve canOpen tokens).state.stdout = none ∧
      (resolve canOpen tokens).state.pipesPresent = 0 := by
  have hno : ¬ tokens.length > 2 := by omega
  have hargv : argvOf (nullFrom 0 tokens.length (tokens.map some ++ [none])) = tokens :=
    argvOf_map_some tokens []
  refine ⟨?_, ?_, ?_, ?_, ?_, ?_⟩ <;>
    simp [resolve, hno, Resolved.plan, planOf, hargv]

/-- C11 on the two tokens `ls >`. -/
theorem resolve_short_witness :
    (resolve (fun _ _ => true) ["ls".toList, ">".toList]).argv = ["ls".toList, ">".toList] ∧
      (resolve (fun _ _ => true) ["ls".toList, ">".toList]).state.opened = [] :=
  ⟨(resolve_short (fun _ _ => true) ["ls".toList, ">".toList] (Or.inr rfl)).1,
    (resolve_short (fun _ _ => true) ["ls".toList, ">".toList] (Or.inr rfl)).2.1⟩

/-- C12: for every token sequence the scan counts at most 2 operators and opens one
file for each; and when `k2 < k1` are the two largest indices in 1..n-2 that hold `<`
or `>`, exactly the operands of these two are opened, that of `k1` first, and the
vector handed to `execvp` is the part of the token sequence before index `k2`, whatever
lies there, further operators included. -/
theorem resolve_two_rightmost (canOpen : OpenMode → Token → Bool) (tokens : List Token) :
    ((resolve canOpen tokens).state.pipesPresent ≤ 2 ∧
      (resolve canOpen tokens).state.opened.length =
        (resolve canOpen tokens).state.pipesPresent) ∧
    ∀ (k1 k2 : Nat) (op1 op2 f1 f2 : Token), 1 ≤ k2 → k2 < k1 → k1 + 1 < tokens.length →
      tokens[k1]? = some op1 → isOperator op1 = true → tokens[k1 + 1]? = some f1 →
      tokens[k2]? = some op2 → isOperator op2 = true → tokens[k2 + 1]? = some f2 →
      (∀ j ct, k2 < j → j ≠ k1 → j + 1 < tokens.length → tokens[j]? = some ct →
        isOperator ct = false) →
      (resolve canOpen tokens).state.pipesPresent = 2 ∧
        (resolve canOpen tokens).state.opened = [(modeOf op1, f1), (modeOf op2, f2)] ∧
        (resolve canOpen tokens).argv = tokens.take k2 := by
  constructor
  · by_cases h : 2 < tokens.length
    · rw [resolve_state canOpen tokens h]
      exact redirScan_counts canOpen tokens _ _ (by simp) (by simp)
    · simp [resolve, h]
  · intro k1 k2 op1 op2 f1 f2 hk2 hk hk1 h1 hop1 hf1 h2 hop2 hf2 hrest
    have hst := resolve_state_two_ops canOpen tokens k1 k2 op1 op2 f1 f2 hk2 hk hk1 h1 hop1
      hf1 h2 hop2 hf2 hrest
    have hne : tokens ≠ [] := by
      intro e
      rw [e] at hk1
      simp at hk1
    obtain ⟨ha, _⟩ := resolve_of_state canOpen tokens _ hne hst
    rw [hst]
    refine ⟨?_, ?_, ?_⟩
    · unfold ChildState.applyOp
      split <;> split <;> rfl
    · rcases (isOperator_iff op1).1 hop1 with rfl | rfl <;>
        rcases (isOperator_iff op2).1 hop2 with rfl | rfl <;>
        simp [ChildState.applyOp, ChildState.redirectOut, ChildState.redirectIn, modeOf]
    · rw [ha]
      congr 1
      unfold ChildState.applyOp
      split <;> rfl

/-- C12 on `c > a < b > d`: the operands `d` and `b` are opened and the vector is
`c > a`. -/
theorem resolve_two_rightmost_witness :
    (resolve (fun _ _ => true)
        ["c".toList, ">".toList, "a".toList, "<".toList, "b".toList, ">".toList,
          "d".toList]).state.pipesPresent = 2 ∧
      (resolve (fun _ _ => true)
        ["c".toList, ">".toList, "a".toList, "<".toList, "b".toList, ">".toList,
          "d".toList]).state.opened =
        [(modeOf ">".toList, "d".toList), (modeOf "<".toList, "b".toList)] ∧
      (resolve (fun _ _ => true)
        ["c".toList, ">".toList, "a".toList, "<".toList, "b".toList, ">".toList,
          "d".toList]).argv =
        List.take 3 ["c".toList, ">".toList, "a".toList, "<".toList, "b".toList, ">".toList,
          "d".toList] :=
  (resolve_two_rightmost (fun _ _ => true)
    ["c".toList, ">".toList, "a".toList, "<".toList, "b".toList, ">".toList,
      "d".toList]).2 5 3 ">".toList "<".toList "d".toList "b".toList (by decide) (by decide)
    (by decide) (by rfl) (by decide) (by rfl) (by rfl) (by decide) (by rfl)
    (by
      intro j ct h1 h2 h3 h4
      have h5 : j + 1 < 7 := h3
      have hj : j = 4 := by omega
      subst hj
      cases h4
      decide)

/-- C17: when the two operators that the scan finds are of the same kind and their
operands can be opened, both operands are opened, that of the right operator first,
and the stream ends up on the operand of the left one: standard output for two `>`,
standard input for two `<`. -/
theorem resolve_same_kind (canOpen : OpenMode → Token → Bool) (tokens : List Token)
    (k1 k2 : Nat) (f1 f2 : Token) (hk2 : 1 ≤ k2) (hk : k2 < k1)
    (hk1 : k1 + 1 < tokens.length) (hf1 : tokens[k1 + 1]? = some f1)
    (hf2 : tokens[k2 + 1]? = some f2)
    (hrest : ∀ j ct, k2 < j → j ≠ k1 → j + 1 < tokens.length → tokens[j]? = some ct →
      isOperator ct = false) :
    (tokens[k1]? = some ['>'] → tokens[k2]? = some ['>'] →
      canOpen .createReadWrite f1 = true → canOpen .createReadWrite f2 = true →
      (resolve canOpen tokens).state.opened =
          [(.createReadWrite, f1), (.createReadWrite, f2)] ∧
        (resolve canOpen tokens).state.stdout = some f2 ∧
        (resolve canOpen tokens).plan.output = some f2) ∧
    (tokens[k1]? = some ['<'] → tokens[k2]? = some ['<'] →
      canOpen .readOnly f1 = true → canOpen .readOnly f2 = true →
      (resolve canOpen tokens).state.opened = [(.readOnly, f1), (.readOnly, f2)] ∧
        (resolve canOpen tokens).state.stdin = some f2 ∧
        (resolve canOpen tokens).plan.input = some f2) := by
  constructor
  · intro h1 h2 _ ho2
    have hst := resolve_state_two_ops canOpen tokens k1 k2 ['>'] ['>'] f1 f2 hk2 hk hk1 h1
      (by decide) hf1 h2 (by decide) hf2 hrest
    unfold Resolved.plan
    rw [hst]
    simp [ChildState.applyOp, ChildState.redirectOut, ho2, planOf]
  · intro h1 h2 _ ho2
    have hst := resolve_state_two_ops canOpen tokens k1 k2 ['<'] ['<'] f1 f2 hk2 hk hk1 h1
      (by decide) hf1 h2 (by decide) hf2 hrest
    unfold Resolved.plan
    rw [hst]
    simp [ChildState.applyOp, ChildState.redirectIn, ho2, planOf]

/-- C17 on `c > a > b`: `b` and then `a` are opened, and standard output is `a`. -/
theorem resolve_same_kind_witness :
    (resolve (fun _ _ => true)
        ["c".toList, ">".toList, "a".toList, ">".toList, "b".toList]).state.opened =
        [(.createReadWrite, "b".toList), (.createReadWrite, "a".toList)] ∧
      (resolve (fun _ _ => true)
        ["c".toList, ">".toList, "a".toList, ">".toList, "b".toList]).state.stdout =
        some "a".toList ∧
      (resolve (fun _ _ => true)
        ["c".toList, ">".toList, "a".toList, ">".toList, "b".toList]).plan.output =
        some "a".toList :=
  (resolve_same_kind (fun _ _ => true)
    ["c".toList, ">".toList, "a".toList, ">".toList, "b".toList] 3 1 "b".toList "a".toList
    (by decide) (by decide) (by decide) (by rfl) (by rfl)
    (by
      intro j ct h1 h2 h3 h4
      have h5 : j + 1 < 5 := h3
      have hj : j = 2 := by omega
      subst hj
      cases h4
      decide)).1 (by rfl) (by rfl) rfl rfl

/-! ## Properties of the loop of `main` -/

/-- C13, the run of the code on the line `nosuchcmd` in the child when `execvp`
fails: `fork` was called, the redirection scan left the vector `nosuchcmd`, and the
child stands at the top of the loop again, about to call `readline`. -/
theorem failed_execvp_child_prompts :
    (loopBody
          { canOpen := fun _ _ => true, forkReturn := .child,
            execvpOk := fun _ _ => false, heapAfter := fun _ => [] }
        "nosuchcmd\n".toList).next = .prompt ∧
      (loopBody
          { canOpen := fun _ _ => true, forkReturn := .child,
            execvpOk := fun _ _ => false, heapAfter := fun _ => [] }
        "nosuchcmd\n".toList).forkCalled = true ∧
      (loopBody
          { canOpen := fun _ _ => true, forkReturn := .child,
            execvpOk := fun _ _ => false, heapAfter := fun _ => [] }
        "nosuchcmd\n".toList).resolved.map Resolved.argv = some ["nosuchcmd".toList] := by
  refine ⟨by rfl, by rfl, by rfl⟩

/-- C14, the run of the code on a line of one space: `readline` returns the line, the
line is handed to `parseTokens`, and the trimming loop leaves the buffer at index -1.
Only the bare newline yields the no-input signal. -/
theorem space_line_is_parsed :
    readline " \n".toList = some " \n".toList ∧
      (loopBody
          { canOpen := fun _ _ => true, forkReturn := .parent,
            execvpOk := fun _ _ => true, heapAfter := fun _ => [] }
        " \n".toList).parsed = true ∧
      (loopBody
          { canOpen := fun _ _ => true, forkReturn := .parent,
            execvpOk := fun _ _ => true, heapAfter := fun _ => [] }
        " \n".toList).next = .undefined .outOfBounds ∧
      (loopBody
          { canOpen := fun _ _ => true, forkReturn := .parent,
            execvpOk := fun _ _ => true, heapAfter := fun _ => [] }
        "\n".toList).parsed = false := by
  refine ⟨by rfl, by rfl, by rfl, by rfl⟩

/-- C15: for every token sequence whose first token is `cd`, the directory handed to
`changeDirectory` is `tokens[1]` when there is more than one token, whatever follows
it, and `/home/a-star/` when `cd` is the only token. -/
theorem cd_directory (env : Env) (tokens : List Token) (h0 : tokens[0]? = some "cd".toList) :
    (tokens.length = 1 → (dispatch env tokens tokens.length).chdir = some "/home/a-star/".toList) ∧
      (1 < tokens.length → ∃ d, tokens[1]? = some d ∧
        (dispatch env tokens tokens.length).chdir = some d) := by
  obtain ⟨d, hroute, hd1, hd2⟩ := route_cd tokens h0
  have hch : (dispatch env tokens tokens.length).chdir = some d := by
    unfold dispatch
    rw [hroute]
  constructor
  · intro h1
    rw [hch, hd1 h1]
    rfl
  · intro h1
    exact ⟨d, hd2 h1, hch⟩

/-- C15 on `cd` alone and on `cd /tmp x`. -/
theorem cd_directory_witness :
    (dispatch
          { canOpen := fun _ _ => true, forkReturn := .parent,
            execvpOk := fun _ _ => true, heapAfter := fun _ => [] }
        ["cd".toList] 1).chdir = some "/home/a-star/".toList ∧
      ∃ d, ["cd".toList, "/tmp".toList, "x".toList][1]? = some d ∧
        (dispatch
          { canOpen := fun _ _ => true, forkReturn := .parent,
            execvpOk := fun _ _ => true, heapAfter := fun _ => [] }
          ["cd".toList, "/tmp".toList, "x".toList] 3).chdir = some d :=
  ⟨(cd_directory _ ["cd".toList] (by rfl)).1 (by rfl),
    (cd_directory _ ["cd".toList, "/tmp".toList, "x".toList] (by rfl)).2 (by decide)⟩

/-- C16: for every non-empty token sequence the branch is chosen by `tokens[0]` alone:
the `cd` branch exactly when it is `cd`, the `exit` branch exactly when it is `exit`,
the external branch otherwise. On the `cd` branch and on the `exit` branch `fork` is not
called and the redirection scan does not run, so that no file is opened; the `exit`
branch ends the process with status 0; the external branch calls `fork`. -/
theorem dispatch_routes (env : Env) (tokens : List Token) (t0 : Token)
    (h0 : tokens[0]? = some t0) :
    ((∃ d, route tokens tokens.length = some (.cd d)) ↔ t0 = "cd".toList) ∧
      (route tokens tokens.length = some .exitShell ↔ t0 = "exit".toList) ∧
      (route tokens tokens.length = some (.external t0) ↔
        (t0 ≠ "cd".toList ∧ t0 ≠ "exit".toList)) ∧
      (t0 = "cd".toList →
        (dispatch env tokens tokens.length).forkCalled = false ∧
          (dispatch env tokens tokens.length).resolved = none ∧
          (dispatch env tokens tokens.length).next = .prompt) ∧
      (t0 = "exit".toList →
        (dispatch env tokens tokens.length).forkCalled = false ∧
          (dispatch env tokens tokens.length).resolved = none ∧
          (dispatch env tokens tokens.length).next = .exited 0) ∧
      (t0 ≠ "cd".toList → t0 ≠ "exit".toList →
        (dispatch env tokens tokens.length).forkCalled = true) := by
  have hne : ("cd".toList : Token) ≠ "exit".toList := by decide
  by_cases hcd : t0 = "cd".toList
  · subst hcd
    obtain ⟨d, hroute, _, _⟩ := route_cd tokens h0
    refine ⟨⟨fun _ => rfl, fun _ => ⟨d, hroute⟩⟩, ?_, ?_, ?_, ?_, ?_⟩
    · rw [hroute]; simp [hne]
    · rw [hroute]; simp
    · intro _
      unfold dispatch
      rw [hroute]
      exact ⟨rfl, rfl, rfl⟩
    · intro h; exact absurd h hne
    · intro h; exact absurd rfl h
  · by_cases hex : t0 = "exit".toList
    · subst hex
      have hroute : route tokens tokens.length = some .exitShell := by
        rw [route_first tokens _ h0, if_neg hcd, if_pos rfl]
      refine ⟨?_, ?_, ?_, ?_, ?_, ?_⟩
      · rw [hroute]; simp [hcd]
      · rw [hroute]; simp
      · rw [hroute]; simp
      · intro h; exact absurd h hcd
      · intro _
        unfold dispatch
        rw [hroute]
        exact ⟨rfl, rfl, rfl⟩
      · intro _ h; exact absurd rfl h
    · have hroute : route tokens tokens.length = some (.external t0) := by
        rw [route_first tokens _ h0, if_neg hcd, if_neg hex]
      refine ⟨?_, ?_, ?_, ?_, ?_, ?_⟩
      · rw [hroute]
        constructor
        · rintro ⟨d, hd⟩
          cases hd
        · intro h; exact absurd h hcd
      · rw [hroute]
        constructor
        · intro hd
          cases hd
        · intro h; exact absurd h hex
      · rw [hroute]
        exact ⟨fun _ => ⟨hcd, hex⟩, fun _ => rfl⟩
      · intro h; exact absurd h hcd
      · intro h; exact absurd h hex
      · intro _ _
        unfold dispatch
        rw [hroute]
        cases env.forkReturn <;> rfl

/-- C16 on the tokens `exit > f`: the `exit` branch, no `fork`, no scan, status 0. -/
theorem dispatch_routes_witness :
    (dispatch
          { canOpen := fun _ _ => true, forkReturn := .child,
            execvpOk := fun _ _ => true, heapAfter := fun _ => [] }
        ["exit".toList, ">".toList, "f".toList] 3).forkCalled = false ∧
      (dispatch
          { canOpen := fun _ _ => true, forkReturn := .child,
            execvpOk := fun _ _ => true, heapAfter := fun _ => [] }
        ["exit".toList, ">".toList, "f".toList] 3).resolved = none ∧
      (dispatch
          { canOpen := fun _ _ => true, forkReturn := .child,
            execvpOk := fun _ _ => true, heapAfter := fun _ => [] }
        ["exit".toList, ">".toList, "f".toList] 3).next = .exited 0 :=
  (dispatch_routes _ ["exit".toList, ">".toList, "f".toList] "exit".toList
    (by rfl)).2.2.2.2.1 rfl

/-! ## The accesses of `parseTokens` to the line buffer -/

/-- Without a double quote in the buffer the scan writes terminated entries only. -/
theorem scanLoop_unquoted_flags (str : List Char) (len : Nat)
    (hq : ∀ k c, charAt str k = some c → c ≠ '"') :
    ∀ (fuel i : Nat) (st st1 : ParseState), scanLoop str len fuel i st = .ok st1 →
      (∀ t ∈ st.terminated, t = true) → ∀ t ∈ st1.terminated, t = true := by
  intro fuel
  induction fuel with
  | zero => intro i st st1 h; simp [scanLoop] at h
  | succ fuel ih =>
    intro i st st1 h hall
    unfold scanLoop at h
    split at h
    · split at h
      · cases h
      · rename_i c hc
        have hcq : c ≠ '"' := hq i c hc
        simp only [hcq, if_false] at h
        split at h
        · split at h
          · cases h
          · exact ih _ _ _ h hall
          · refine ih _ _ _ h ?_
            intro t ht
            simp only [ParseState.push, List.mem_append, List.mem_singleton] at ht
            rcases ht with ht | ht
            · exact hall t ht
            · exact ht
        · exact ih _ _ _ h hall
    · cases h
      exact hall

theorem cStringsFrom_terminated (after : Nat → List Char) :
    ∀ (arr : List Token) (k : Nat) (ts : List Bool), (∀ t ∈ ts, t = true) →
      cStringsFrom after k arr ts = arr := by
  intro arr
  induction arr with
  | nil => intro k ts _; cases ts <;> rfl
  | cons tk arr ih =>
    intro k ts hall
    cases ts with
    | nil => simp [cStringsFrom, ih (k + 1) [] (by simp)]
    | cons t ts =>
      have ht : t = true := hall t (by simp)
      simp [cStringsFrom, ht, ih (k + 1) ts (fun x hx => hall x (by simp [hx]))]

/-- On a line without a double quote every entry of the array is terminated: the
tokens that the program reads are the character sequences that `tokenize` returns. -/
theorem parseTokens_unquoted_cStrings (line : List Char) (hq : '"' ∉ line) (p : Parsed)
    (h : parseTokens (line ++ ['\n']) = .ok p) (after : Nat → List Char) :
    p.cStrings after = p.arr ∧ tokenize line = .ok (p.arr, p.token_count) := by
  constructor
  · unfold parseTokens at h
    split at h
    · cases h
    · split at h
      · cases h
      · rename_i l _
        simp only at h
        split at h
        · cases h
        · rename_i st hst
          cases h
          have hbuf : ∀ k c, charAt ((line ++ ['\n']).set (l + 1) ' ') k = some c → c ≠ '"' := by
            intro k c hc hcq
            subst hcq
            unfold charAt at hc
            split at hc
            · have hmem := List.getElem?_mem hc
              rcases List.mem_or_eq_of_mem_set hmem with hm | hm
              · rcases List.mem_append.1 hm with hm | hm
                · exact hq hm
                · simp at hm
              · exact absurd hm (by decide)
            · split at hc
              · exact absurd (Option.some.inj hc) (by decide)
              · cases hc
          have hall := scanLoop_unquoted_flags _ _ hbuf _ _ _ _ hst (by simp)
          exact cStringsFrom_terminated after _ 0 _ hall
  · unfold tokenize
    rw [h]
    rfl

end MiniShell
